import Mathlib

/-!
# Word index of `ep.c`: linked list and binary search tree

A shallow embedding of the indexing and search engine of `src/ep.c`.

Conventions of the embedding.

* A C string is the list of its bytes before the terminating NUL (`Cadeia`).
  The program keeps words in `char[50]` buffers and lines in a `char[1024]`
  buffer; the embedding describes the executions in which every string fits
  its buffer, and puts no bound on the length of a list.
* `int linha` is an `Int`; `int ocorrencias` only counts up from `0` or `1`
  and is a `Nat`. Overflow of either is outside the embedding.
* A singly linked list of `no_lista_palavras` is a Lean `List` of its nodes
  from the head on (`proximo` is the tail, `NULL` is `[]`).
* A tree of `no_arvore_palavras` is an inductive type with `NULL` as the
  empty tree. The array `linhas` is a `List Int`; `realloc` is modelled
  explicitly so that the length of the array is not tied to `ocorrencias`
  by construction.
* The text file is the list of the buffers delivered by successive `fgets`
  calls, one per physical line.
-/

namespace Ep

/-- A C string: the bytes before the terminating NUL. -/
abbrev Cadeia := List Nat

/-- The bytes of an ASCII literal. -/
def bytes (s : String) : Cadeia := s.toList.map Char.toNat

/-! ## libc -/

/-- `isalpha` in the "C" locale: the letters `A`–`Z` and `a`–`z`; no byte
above `127` is alphabetic. -/
def isalpha (c : Nat) : Bool := (65 ≤ c && c ≤ 90) || (97 ≤ c && c ≤ 122)

/-- `tolower` in the "C" locale: `A`–`Z` are moved to `a`–`z`. -/
def tolower (c : Nat) : Nat := if 65 ≤ c ∧ c ≤ 90 then c + 32 else c

/-- `strcmp`: the sign of the comparison at the first differing byte, a
string that ends first being the smaller. Only the sign is used by the
program, so the result is normalised to `-1`, `0` or `1`. -/
def strcmp : Cadeia → Cadeia → Int
  | [], [] => 0
  | [], _ :: _ => -1
  | _ :: _, [] => 1
  | a :: s, b :: t => if a < b then -1 else if b < a then 1 else strcmp s t

/-- Membership in the delimiter set `" \t\n"` handed to `strtok`. -/
def delimitador (c : Nat) : Bool := c == 32 || c == 9 || c == 10

/-- The scan behind the successive `strtok` calls: `token` is the part of
the current token read so far (empty while delimiters are being skipped). -/
def strtokDesde : Cadeia → Cadeia → List Cadeia
  | [], token => if token = [] then [] else [token]
  | c :: resto, token =>
    if delimitador c then
      if token = [] then strtokDesde resto [] else token :: strtokDesde resto []
    else strtokDesde resto (token ++ [c])

/-- All tokens that `strtok(armazenamento, " \t\n")` followed by
`strtok(NULL, " \t\n")` until `NULL` deliver, in order. -/
def strtok (armazenamento : Cadeia) : List Cadeia := strtokDesde armazenamento []

/-- `realloc(p, n * sizeof(int))`: the first `n` cells of `p` are kept, new
cells hold an indeterminate value (modelled as `0`). -/
def realloc (p : List Int) (n : Nat) : List Int :=
  p.take n ++ List.replicate (n - p.length) 0

/-! ## Normalizer -/

/-- `normalizaPalavra(entrada, saida)`: the contents of `saida` on return.
The loop walks `entrada`; an alphabetic byte is lowered and stored at the
next free cell of `saida`, any other byte is skipped. The write index never
passes the read index, so the call with `saida == entrada` made by
`procuraNaLista` computes the same string. -/
def normalizaPalavra : Cadeia → Cadeia
  | [] => []
  | c :: resto =>
    if isalpha c then tolower c :: normalizaPalavra resto
    else normalizaPalavra resto

/-! ## Linked list -/

/-- A node of the linked list, without its `proximo` link. -/
structure no_lista_palavras where
  palavra : Cadeia
  linha : Int
deriving DecidableEq, Repr

/-- `criaNoListaPalavras`: a fresh node holding a copy of the word. -/
def criaNoListaPalavras (palavra : Cadeia) (linha : Int) : no_lista_palavras :=
  { palavra := palavra, linha := linha }

/-- The `while` loop of `insereNoLista` and the two link updates after it.
The argument is the chain `atual->proximo`; the result is that chain with
`novo_no` linked in. The loop advances while the next node exists and
`linha > atual->proximo->linha`. -/
def insereDepois (novo_no : no_lista_palavras) :
    List no_lista_palavras → List no_lista_palavras
  | [] => [novo_no]
  | proximo :: resto =>
    if novo_no.linha > proximo.linha then proximo :: insereDepois novo_no resto
    else novo_no :: proximo :: resto

/-- `insereNoLista(cabeca, palavra, linha)`: the new head. -/
def insereNoLista (cabeca : List no_lista_palavras) (palavra : Cadeia) (linha : Int) :
    List no_lista_palavras :=
  match cabeca with
  | [] => [criaNoListaPalavras palavra linha]
  | primeiro :: resto =>
    if linha < primeiro.linha then criaNoListaPalavras palavra linha :: primeiro :: resto
    else primeiro :: insereDepois (criaNoListaPalavras palavra linha) resto

/-- The report line printed by `procuraNaLista`. -/
inductive Mensagem where
  | existem (ocorrencias : Nat) (palavra : Cadeia)
  | naoEncontrada (palavra : Cadeia)
deriving DecidableEq, Repr

/-- The `while` loop of `procuraNaLista` from the node `atual` on, with the
current values of `respostaCabeca` and `ocorrencias`. -/
def procuraNaListaLaco (palavra : Cadeia) :
    List no_lista_palavras → List no_lista_palavras → Nat → List no_lista_palavras × Nat
  | [], respostaCabeca, ocorrencias => (respostaCabeca, ocorrencias)
  | atual :: proximo, respostaCabeca, ocorrencias =>
    let stringNormalizada := normalizaPalavra atual.palavra
    let palavraNormalizada := normalizaPalavra palavra
    if strcmp palavraNormalizada stringNormalizada = 0 then
      procuraNaListaLaco palavra proximo
        (insereNoLista respostaCabeca stringNormalizada atual.linha) (ocorrencias + 1)
    else procuraNaListaLaco palavra proximo respostaCabeca ocorrencias

/-- What `procuraNaLista` returns and reports. -/
structure ResultadoLista where
  respostaCabeca : List no_lista_palavras
  ocorrencias : Nat
  mensagem : Mensagem
deriving DecidableEq, Repr

/-- `procuraNaLista(cabeca, palavra)`. -/
def procuraNaLista (cabeca : List no_lista_palavras) (palavra : Cadeia) : ResultadoLista :=
  let r := procuraNaListaLaco palavra cabeca [] 0
  { respostaCabeca := r.1
    ocorrencias := r.2
    mensagem := if r.2 > 0 then Mensagem.existem r.2 palavra else Mensagem.naoEncontrada palavra }

/-! ## Binary search tree -/

/-- A tree of `no_arvore_palavras` nodes; `NULL` is the empty tree. -/
inductive no_arvore_palavras where
  | NULL
  | no (palavra : Cadeia) (linhas : List Int) (ocorrencias : Nat)
      (esquerda direita : no_arvore_palavras)
deriving DecidableEq, Repr

/-- `criaNoArvorePalavras`: a fresh leaf with one occurrence. -/
def criaNoArvorePalavras (palavra : Cadeia) (linha : Int) : no_arvore_palavras :=
  .no palavra [linha] 1 .NULL .NULL

/-- `criaNoArvore(raiz, palavra, linha)`: the root after the insertion. -/
def criaNoArvore : no_arvore_palavras → Cadeia → Int → no_arvore_palavras
  | .NULL, palavra, linha => criaNoArvorePalavras palavra linha
  | .no chave linhas ocorrencias esquerda direita, palavra, linha =>
    if strcmp palavra chave = 0 then
      .no chave ((realloc linhas (ocorrencias + 1)).set (ocorrencias + 1 - 1) linha)
        (ocorrencias + 1) esquerda direita
    else if strcmp palavra chave < 0 then
      .no chave linhas ocorrencias (criaNoArvore esquerda palavra linha) direita
    else
      .no chave linhas ocorrencias esquerda (criaNoArvore direita palavra linha)

/-- `buscaArvore(raiz, palavra)`: the node found (with its subtrees), or
`NULL`. -/
def buscaArvore : no_arvore_palavras → Cadeia → no_arvore_palavras
  | .NULL, _ => .NULL
  | .no chave linhas ocorrencias esquerda direita, palavra =>
    if strcmp palavra chave = 0 then .no chave linhas ocorrencias esquerda direita
    else if strcmp palavra chave < 0 then buscaArvore esquerda palavra
    else buscaArvore direita palavra

/-- `imprimeArvore(raiz)`: the records printed, in print order. Each
record is the word of the node visited, its counter and the cells
`linhas[0]`, ..., `linhas[ocorrencias - 1]` printed by the `for` loop. -/
def imprimeArvore : no_arvore_palavras → List (Cadeia × Nat × List Int)
  | .NULL => []
  | .no palavra linhas ocorrencias esquerda direita =>
    imprimeArvore esquerda ++
      (palavra, ocorrencias, linhas.take ocorrencias) :: imprimeArvore direita

/-! ## Ingestion pass of `main` -/

/-- The two indexes `main` builds side by side. -/
structure Indices where
  cabeca_da_lista : List no_lista_palavras
  raiz_da_arvore : no_arvore_palavras
deriving DecidableEq, Repr

/-- The inner `while (token != NULL)` loop of `main` for one line. -/
def lacoTokens (linha : Int) : List Cadeia → Indices → Indices
  | [], ix => ix
  | token :: resto, ix =>
    let tokenNormalizado := normalizaPalavra token
    lacoTokens linha resto
      { cabeca_da_lista := insereNoLista ix.cabeca_da_lista tokenNormalizado linha
        raiz_da_arvore := criaNoArvore ix.raiz_da_arvore tokenNormalizado linha }

/-- The outer `while (fgets(...) != NULL)` loop of `main`; `linha` is the
counter, incremented after each line. -/
def lacoLinhas : List Cadeia → Int → Indices → Indices
  | [], _, ix => ix
  | armazenamento :: resto, linha, ix =>
    lacoLinhas resto (linha + 1) (lacoTokens linha (strtok armazenamento) ix)

/-- The ingestion pass: both indexes start empty and `linha` starts at `1`. -/
def indexa (arquivo : List Cadeia) : Indices :=
  lacoLinhas arquivo 1 { cabeca_da_lista := [], raiz_da_arvore := .NULL }

/-! ## Query dispatch of `main` -/

/-- What the `busca` branch of the command loop reports: the result of the
list scan, the pointer returned by the tree search, or the invalid-type
notice. -/
inductive Saida where
  | lista (respostaLista : ResultadoLista)
  | arvore (respostaArvore : no_arvore_palavras)
  | tipoInvalido
deriving DecidableEq, Repr

/-- The `busca` branch of the command loop for the selector `argv2` (the
program's `argv[2]`) and the query read from the input: the report and the
two indexes afterwards. -/
def comandoBusca (argv2 : Cadeia) (ix : Indices) (palavra_a_procurar : Cadeia) :
    Saida × Indices :=
  if strcmp argv2 (bytes "lista") = 0 then
    (Saida.lista (procuraNaLista ix.cabeca_da_lista palavra_a_procurar), ix)
  else if strcmp argv2 (bytes "arvore") = 0 then
    let palavra_a_procurar_normalizada := normalizaPalavra palavra_a_procurar
    (Saida.arvore (buscaArvore ix.raiz_da_arvore palavra_a_procurar_normalizada), ix)
  else (Saida.tipoInvalido, ix)

/-! ## Notions used to state the properties -/

/-- Byte-wise lexicographic order on strings: the first differing byte
decides, and a proper prefix is smaller. -/
def menor (a b : Cadeia) : Prop := List.Lex (fun x y : Nat => x < y) a b

instance : DecidableRel menor := fun a b => by unfold menor; infer_instance

/-- The keys of a tree, read left subtree, node, right subtree: one entry
per node. -/
def chaves : no_arvore_palavras → List Cadeia
  | .NULL => []
  | .no chave _ _ esquerda direita => chaves esquerda ++ chave :: chaves direita

/-- Number of nodes of a tree. -/
def numNos : no_arvore_palavras → Nat
  | .NULL => 0
  | .no _ _ _ esquerda direita => numNos esquerda + 1 + numNos direita

/-- Binary-search-tree property: at every node, each key of the left
subtree is smaller than the node's key and each key of the right subtree
is greater. -/
def BST : no_arvore_palavras → Prop
  | .NULL => True
  | .no chave _ _ esquerda direita =>
    (∀ x ∈ chaves esquerda, menor x chave) ∧ (∀ x ∈ chaves direita, menor chave x) ∧
      BST esquerda ∧ BST direita

/-- Every node's counter is the length of its line array. -/
def Coerente : no_arvore_palavras → Prop
  | .NULL => True
  | .no _ linhas ocorrencias esquerda direita =>
    ocorrencias = linhas.length ∧ Coerente esquerda ∧ Coerente direita

/-- The fields `palavra`, `linhas`, `ocorrencias` of the node a pointer
designates; `none` for the null pointer. -/
def campos : no_arvore_palavras → Option (Cadeia × List Int × Nat)
  | .NULL => none
  | .no chave linhas ocorrencias _ _ => some (chave, linhas, ocorrencias)

/-- A sequence of `criaNoArvore` calls, each rebinding the root. -/
def insereTodosArvore (raiz : no_arvore_palavras) (pares : List (Cadeia × Int)) :
    no_arvore_palavras :=
  pares.foldl (fun r p => criaNoArvore r p.1 p.2) raiz

/-- A sequence of `insereNoLista` calls, each rebinding the head. -/
def insereTodosLista (cabeca : List no_lista_palavras) (pares : List (Cadeia × Int)) :
    List no_lista_palavras :=
  pares.foldl (fun c p => insereNoLista c p.1 p.2) cabeca

/-- The line numbers of a list, head to tail. -/
def linhasDaLista (cabeca : List no_lista_palavras) : List Int :=
  cabeca.map (fun no => no.linha)

/-- The lines of a list are non-decreasing from head to tail. -/
def OrdenadaPorLinha (cabeca : List no_lista_palavras) : Prop :=
  List.Sorted (fun a b : Int => a ≤ b) (linhasDaLista cabeca)

/-- The lines handed to `criaNoArvore` together with the word `w`, in the
order of the calls. -/
def linhasInseridas (pares : List (Cadeia × Int)) (w : Cadeia) : List Int :=
  (pares.filter (fun p => p.1 = w)).map Prod.snd

/-- The nodes the scan of `procuraNaLista` selects, in list order, as the
(word, line) pairs it inserts into the result. -/
def casam (q : Cadeia) (l : List no_lista_palavras) : List (Cadeia × Int) :=
  (l.filter (fun no => normalizaPalavra no.palavra = normalizaPalavra q)).map
    (fun no => (normalizaPalavra no.palavra, no.linha))

/-- The nodes of a tree, each as the triple of its fields `palavra`,
`linhas`, `ocorrencias`; root first, then the left and the right subtree. -/
def nos : no_arvore_palavras → List (Cadeia × List Int × Nat)
  | .NULL => []
  | .no chave linhas ocorrencias esquerda direita =>
    (chave, linhas, ocorrencias) :: (nos esquerda ++ nos direita)

/-- The tree of the same shape in which every node of key `w` has `linha`
appended to its line array and its counter raised by one, all other nodes
being as they were. -/
def acrescenta (w : Cadeia) (linha : Int) : no_arvore_palavras → no_arvore_palavras
  | .NULL => .NULL
  | .no chave linhas ocorrencias esquerda direita =>
    .no chave (if chave = w then linhas ++ [linha] else linhas)
      (if chave = w then ocorrencias + 1 else ocorrencias)
      (acrescenta w linha esquerda) (acrescenta w linha direita)

/-- Height of a tree: the number of nodes on a longest path from the root
down. -/
def altura : no_arvore_palavras → Nat
  | .NULL => 0
  | .no _ _ _ esquerda direita => 1 + max (altura esquerda) (altura direita)

/-- No node of the tree has a left child. -/
def semEsquerda : no_arvore_palavras → Prop
  | .NULL => True
  | .no _ _ _ esquerda direita => esquerda = .NULL ∧ semEsquerda direita

/-- The number of nodes `buscaArvore(raiz, palavra)` visits: one for each
call whose `raiz` is not null, along the path the search follows. -/
def visitas : no_arvore_palavras → Cadeia → Nat
  | .NULL, _ => 0
  | .no chave _ _ esquerda direita, palavra =>
    if strcmp palavra chave = 0 then 1
    else if strcmp palavra chave < 0 then 1 + visitas esquerda palavra
    else 1 + visitas direita palavra

instance decBST : (t : no_arvore_palavras) → Decidable (BST t)
  | .NULL => isTrue trivial
  | .no k _ _ e d =>
    have := decBST e
    have := decBST d
    inferInstanceAs (Decidable ((∀ x ∈ chaves e, menor x k) ∧ (∀ x ∈ chaves d, menor k x) ∧
      BST e ∧ BST d))

instance decCoerente : (t : no_arvore_palavras) → Decidable (Coerente t)
  | .NULL => isTrue trivial
  | .no _ ls oc e d =>
    have := decCoerente e
    have := decCoerente d
    inferInstanceAs (Decidable (oc = ls.length ∧ Coerente e ∧ Coerente d))

instance decSemEsquerda : (t : no_arvore_palavras) → Decidable (semEsquerda t)
  | .NULL => isTrue trivial
  | .no _ _ _ e d =>
    have := decSemEsquerda d
    inferInstanceAs (Decidable (e = .NULL ∧ semEsquerda d))

/-- The tokens of a line that have no alphabetic byte. -/
def tokensSemLetras (armazenamento : Cadeia) : List Cadeia :=
  (strtok armazenamento).filter (fun token => token.all (fun c => !isalpha c))

/-- The insertions the ingestion pass makes from line number `linha` on:
for each line in turn, one pair per token, in token order. -/
def paresDe : List Cadeia → Int → List (Cadeia × Int)
  | [], _ => []
  | armazenamento :: resto, linha =>
    (strtok armazenamento).map (fun token => (normalizaPalavra token, linha)) ++
      paresDe resto (linha + 1)

/-- The sorted list of the line numbers on which `w` occurs: line `n`
(counted from `1`) is listed once for each of its tokens that normalizes
to `w`. -/
def linhasEsperadas (arquivo : List Cadeia) (w : Cadeia) : List Int :=
  (arquivo.enumFrom 1).flatMap (fun p =>
    List.replicate ((strtok p.2).filter (fun token => normalizaPalavra token = w)).length
      (p.1 : Int))

/-- The placement rule "immediately before the first node whose line is
strictly greater than `linha`, at the end if there is none", written out
for comparison with `insereNoLista`. -/
def insereEstavel (cabeca : List no_lista_palavras) (palavra : Cadeia) (linha : Int) :
    List no_lista_palavras :=
  cabeca.takeWhile (fun no => decide (no.linha ≤ linha)) ++
    criaNoListaPalavras palavra linha ::
      cabeca.dropWhile (fun no => decide (no.linha ≤ linha))

/-- The three-line file of the concrete scenario, as `fgets` delivers it
(each buffer keeps its newline). -/
def arquivoExemplo : List Cadeia :=
  [bytes "cat dog\n", bytes "Dog cat CAT\n", bytes "bird\n"]

/-- The tree the insertions `(dog, 1)`, `(cat, 1)` build from the empty
tree. -/
def arvoreExemplo : no_arvore_palavras :=
  insereTodosArvore .NULL [(bytes "dog", 1), (bytes "cat", 1)]

/-! ## `strcmp` and the lexicographic order -/

theorem strcmp_eq_zero_iff (a b : Cadeia) : strcmp a b = 0 ↔ a = b := by
  induction a generalizing b with
  | nil => cases b <;> simp [strcmp]
  | cons x s ih =>
    cases b with
    | nil => simp [strcmp]
    | cons y t =>
      simp only [strcmp]
      split_ifs with h1 h2
      · simp; omega
      · simp; omega
      · have hxy : x = y := by omega
        simp [ih, hxy]

theorem strcmp_neg_iff (a b : Cadeia) : strcmp a b < 0 ↔ menor a b := by
  unfold menor
  induction a generalizing b with
  | nil =>
    cases b with
    | nil => simp [strcmp]
    | cons y t => simpa [strcmp] using List.Lex.nil
  | cons x s ih =>
    cases b with
    | nil => simp [strcmp]
    | cons y t =>
      simp only [strcmp]
      split_ifs with h1 h2
      · simpa using List.Lex.rel h1
      · constructor
        · intro h; omega
        · intro h
          cases h with
          | cons h => omega
          | rel h => omega
      · have hxy : x = y := by omega
        subst hxy
        constructor
        · intro h
          exact List.Lex.cons ((ih t).1 h)
        · intro h
          cases h with
          | cons h => exact (ih t).2 h
          | rel h => omega

theorem strcmp_pos_iff (a b : Cadeia) : 0 < strcmp a b ↔ menor b a := by
  unfold menor
  induction a generalizing b with
  | nil => cases b <;> simp [strcmp]
  | cons x s ih =>
    cases b with
    | nil => simpa [strcmp] using List.Lex.nil
    | cons y t =>
      simp only [strcmp]
      split_ifs with h1 h2
      · constructor
        · intro h; omega
        · intro h
          cases h with
          | cons h => omega
          | rel h => omega
      · simpa using List.Lex.rel h2
      · have hxy : x = y := by omega
        subst hxy
        constructor
        · intro h
          exact List.Lex.cons ((ih t).1 h)
        · intro h
          cases h with
          | cons h => exact (ih t).2 h
          | rel h => omega

theorem menor_asymm {a b : Cadeia} (h : menor a b) : ¬ menor b a := by
  have h1 := (strcmp_neg_iff a b).2 h
  intro h2
  have h3 := (strcmp_pos_iff a b).2 h2
  omega

theorem menor_irrefl (a : Cadeia) : ¬ menor a a := fun h => menor_asymm h h

/-! ## Tree: keys, order and counters -/

theorem mem_chaves_criaNoArvore (t : no_arvore_palavras) (w : Cadeia) (l : Int) (x : Cadeia) :
    x ∈ chaves (criaNoArvore t w l) ↔ x ∈ chaves t ∨ x = w := by
  induction t with
  | NULL => simp [criaNoArvore, criaNoArvorePalavras, chaves]
  | no k ls oc e d ihe ihd =>
    simp only [criaNoArvore]
    split_ifs with h1 h2
    · have hk : w = k := (strcmp_eq_zero_iff w k).1 h1
      subst hk
      simp only [chaves, List.mem_append, List.mem_cons]
      tauto
    · simp only [chaves, List.mem_append, List.mem_cons, ihe]
      tauto
    · simp only [chaves, List.mem_append, List.mem_cons, ihd]
      tauto

theorem BST_criaNoArvore (t : no_arvore_palavras) (w : Cadeia) (l : Int) (h : BST t) :
    BST (criaNoArvore t w l) := by
  induction t with
  | NULL => simp [criaNoArvore, criaNoArvorePalavras, BST, chaves]
  | no k ls oc e d ihe ihd =>
    obtain ⟨he, hd, hbe, hbd⟩ := h
    simp only [criaNoArvore]
    split_ifs with h1 h2
    · exact ⟨he, hd, hbe, hbd⟩
    · refine ⟨?_, hd, ihe hbe, hbd⟩
      intro x hx
      rcases (mem_chaves_criaNoArvore e w l x).1 hx with hx | hx
      · exact he x hx
      · subst hx
        exact (strcmp_neg_iff _ _).1 h2
    · refine ⟨he, ?_, hbe, ihd hbd⟩
      intro x hx
      rcases (mem_chaves_criaNoArvore d w l x).1 hx with hx | hx
      · exact hd x hx
      · subst hx
        have h3 : 0 < strcmp x k := by omega
        exact (strcmp_pos_iff _ _).1 h3

theorem BST_insereTodosArvore (pares : List (Cadeia × Int)) (t : no_arvore_palavras)
    (h : BST t) : BST (insereTodosArvore t pares) := by
  induction pares generalizing t with
  | nil => exact h
  | cons p ps ih => exact ih _ (BST_criaNoArvore t p.1 p.2 h)

theorem mem_chaves_insereTodosArvore (pares : List (Cadeia × Int)) (t : no_arvore_palavras)
    (x : Cadeia) :
    x ∈ chaves (insereTodosArvore t pares) ↔ x ∈ chaves t ∨ x ∈ pares.map Prod.fst := by
  induction pares generalizing t with
  | nil => simp [insereTodosArvore]
  | cons p ps ih =>
    have h := ih (criaNoArvore t p.1 p.2)
    simp only [insereTodosArvore, List.foldl_cons] at h ⊢
    rw [h, mem_chaves_criaNoArvore]
    simp only [List.map_cons, List.mem_cons]
    tauto

theorem numNos_eq_length_chaves (t : no_arvore_palavras) : numNos t = (chaves t).length := by
  induction t with
  | NULL => rfl
  | no k ls oc e d ihe ihd => simp [numNos, chaves, ihe, ihd]; omega

theorem BST_nodup_chaves (t : no_arvore_palavras) (h : BST t) : (chaves t).Nodup := by
  induction t with
  | NULL => simp [chaves]
  | no k ls oc e d ihe ihd =>
    obtain ⟨he, hd, hbe, hbd⟩ := h
    simp only [chaves]
    rw [List.nodup_append]
    refine ⟨ihe hbe, ?_, ?_⟩
    · rw [List.nodup_cons]
      exact ⟨fun hk => menor_irrefl k (hd k hk), ihd hbd⟩
    · intro x hx hx2
      rcases List.mem_cons.1 hx2 with hx2 | hx2
      · subst hx2
        exact menor_irrefl x (he x hx)
      · exact menor_asymm (he x hx) (hd x hx2)

theorem Coerente_criaNoArvore (t : no_arvore_palavras) (w : Cadeia) (l : Int)
    (h : Coerente t) : Coerente (criaNoArvore t w l) := by
  induction t with
  | NULL => simp [criaNoArvore, criaNoArvorePalavras, Coerente]
  | no k ls oc e d ihe ihd =>
    obtain ⟨hc, hce, hcd⟩ := h
    simp only [criaNoArvore]
    split_ifs with h1 h2
    · refine ⟨?_, hce, hcd⟩
      simp [realloc, hc]
    · exact ⟨hc, ihe hce, hcd⟩
    · exact ⟨hc, hce, ihd hcd⟩

theorem realloc_set_length (ls : List Int) (l : Int) :
    (realloc ls (ls.length + 1)).set (ls.length + 1 - 1) l = ls ++ [l] := by
  simp [realloc, List.set_append]

/-! ## Tree: search after insertion -/

theorem buscaArvore_chave (t : no_arvore_palavras) (w k : Cadeia) (ls : List Int) (oc : Nat)
    (h : campos (buscaArvore t w) = some (k, ls, oc)) : k = w := by
  induction t with
  | NULL => simp [buscaArvore, campos] at h
  | no k2 ls2 oc2 e d ihe ihd =>
    simp only [buscaArvore] at h
    split_ifs at h with h1 h2
    · simp only [campos, Option.some.injEq, Prod.mk.injEq] at h
      rw [← h.1]
      exact ((strcmp_eq_zero_iff w k2).1 h1).symm
    · exact ihe h
    · exact ihd h

theorem buscaArvore_criaNoArvore_outro (t : no_arvore_palavras) (w v : Cadeia) (l : Int)
    (hvw : v ≠ w) :
    campos (buscaArvore (criaNoArvore t w l) v) = campos (buscaArvore t v) := by
  induction t with
  | NULL =>
    have h0 : strcmp v w ≠ 0 := fun h => hvw ((strcmp_eq_zero_iff v w).1 h)
    simp only [criaNoArvore, criaNoArvorePalavras, buscaArvore]
    split_ifs <;> simp_all [campos]
  | no k ls oc e d ihe ihd =>
    simp only [criaNoArvore]
    split_ifs with h1 h2
    · have hk : w = k := (strcmp_eq_zero_iff w k).1 h1
      have h0 : strcmp v k ≠ 0 := fun h => hvw (((strcmp_eq_zero_iff v k).1 h).trans hk.symm)
      simp only [buscaArvore, if_neg h0]
    · simp only [buscaArvore]
      split_ifs
      · rfl
      · exact ihe
      · rfl
    · simp only [buscaArvore]
      split_ifs
      · rfl
      · rfl
      · exact ihd

theorem buscaArvore_criaNoArvore_mesmo (t : no_arvore_palavras) (w : Cadeia) (l : Int) :
    campos (buscaArvore (criaNoArvore t w l) w) =
      match campos (buscaArvore t w) with
      | none => some (w, [l], 1)
      | some (k, ls, oc) => some (k, (realloc ls (oc + 1)).set (oc + 1 - 1) l, oc + 1) := by
  induction t with
  | NULL =>
    have h0 : strcmp w w = 0 := (strcmp_eq_zero_iff w w).2 rfl
    simp [criaNoArvore, criaNoArvorePalavras, buscaArvore, campos, h0]
  | no k ls oc e d ihe ihd =>
    simp only [criaNoArvore]
    split_ifs with h1 h2
    · simp only [buscaArvore, if_pos h1, campos]
    · simp only [buscaArvore, if_neg h1, if_pos h2]
      exact ihe
    · simp only [buscaArvore, if_neg h1, if_neg h2]
      exact ihd

theorem linhasInseridas_append (a b : List (Cadeia × Int)) (w : Cadeia) :
    linhasInseridas (a ++ b) w = linhasInseridas a w ++ linhasInseridas b w := by
  simp [linhasInseridas]

theorem insereTodosArvore_append (t : no_arvore_palavras) (a b : List (Cadeia × Int)) :
    insereTodosArvore t (a ++ b) = insereTodosArvore (insereTodosArvore t a) b := by
  simp [insereTodosArvore]

/-- The node found for `w` after a sequence of insertions from the empty
tree: none when `w` was never inserted, otherwise the node of key `w` with
the inserted lines in call order and their number as counter. -/
theorem campos_buscaArvore_insereTodosArvore (pares : List (Cadeia × Int)) (w : Cadeia) :
    campos (buscaArvore (insereTodosArvore .NULL pares) w) =
      if linhasInseridas pares w = [] then none
      else some (w, linhasInseridas pares w, (linhasInseridas pares w).length) := by
  induction pares using List.reverseRecOn with
  | nil => simp [insereTodosArvore, buscaArvore, campos, linhasInseridas]
  | append_singleton ps p ih =>
    rw [insereTodosArvore_append, linhasInseridas_append]
    simp only [insereTodosArvore, List.foldl_cons, List.foldl_nil] at ih ⊢
    by_cases hp : p.1 = w
    · have hl : linhasInseridas [p] w = [p.2] := by simp [linhasInseridas, hp]
      rw [hl, hp, buscaArvore_criaNoArvore_mesmo, ih]
      by_cases hnil : linhasInseridas ps w = []
      · simp [hnil]
      · simp only [if_neg hnil]
        rw [realloc_set_length]
        simp
    · have hl : linhasInseridas [p] w = [] := by simp [linhasInseridas, hp]
      rw [hl, buscaArvore_criaNoArvore_outro _ _ _ _ (fun h => hp h.symm), ih]
      simp

theorem campos_eq_some_iff (t : no_arvore_palavras) (k : Cadeia) (ls : List Int) (oc : Nat) :
    campos t = some (k, ls, oc) ↔ ∃ e d, t = .no k ls oc e d := by
  cases t with
  | NULL => simp [campos]
  | no k2 ls2 oc2 e d => simp [campos]

theorem campos_eq_none_iff (t : no_arvore_palavras) : campos t = none ↔ t = .NULL := by
  cases t <;> simp [campos]

theorem linhasInseridas_eq_nil_iff (pares : List (Cadeia × Int)) (w : Cadeia) :
    linhasInseridas pares w = [] ↔ w ∉ pares.map Prod.fst := by
  simp only [linhasInseridas, List.map_eq_nil_iff, List.filter_eq_nil_iff, List.mem_map,
    decide_eq_true_eq]
  constructor
  · rintro h ⟨p, hp, rfl⟩
    exact h p hp rfl
  · intro h p hp hw
    exact h ⟨p, hp, hw⟩

/-! ## Linked list: ordered insertion -/

theorem insereDepois_perm (n : no_lista_palavras) (l : List no_lista_palavras) :
    (insereDepois n l).Perm (n :: l) := by
  induction l with
  | nil => simp [insereDepois]
  | cons p r ih =>
    simp only [insereDepois]
    split_ifs with h
    · exact ((List.Perm.cons p ih).trans (List.Perm.swap n p r))
    · exact List.Perm.refl _

theorem insereNoLista_perm (l : List no_lista_palavras) (w : Cadeia) (n : Int) :
    (insereNoLista l w n).Perm (criaNoListaPalavras w n :: l) := by
  cases l with
  | nil => simp [insereNoLista]
  | cons p r =>
    simp only [insereNoLista]
    split_ifs with h
    · exact List.Perm.refl _
    · exact ((List.Perm.cons p (insereDepois_perm _ r)).trans (List.Perm.swap _ p r))

theorem ordenada_iff (l : List no_lista_palavras) :
    OrdenadaPorLinha l ↔ l.Pairwise (fun a b => a.linha ≤ b.linha) := by
  simp [OrdenadaPorLinha, linhasDaLista, List.Sorted, List.pairwise_map]

theorem insereDepois_pairwise (n : no_lista_palavras) (l : List no_lista_palavras)
    (h : l.Pairwise (fun a b => a.linha ≤ b.linha)) :
    (insereDepois n l).Pairwise (fun a b => a.linha ≤ b.linha) := by
  induction l with
  | nil => simp [insereDepois]
  | cons p r ih =>
    rw [List.pairwise_cons] at h
    simp only [insereDepois]
    split_ifs with hgt
    · rw [List.pairwise_cons]
      refine ⟨?_, ih h.2⟩
      intro x hx
      rcases List.mem_cons.1 ((insereDepois_perm n r).mem_iff.1 hx) with hx | hx
      · subst hx; omega
      · exact h.1 x hx
    · rw [List.pairwise_cons, List.pairwise_cons]
      refine ⟨?_, h.1, h.2⟩
      intro x hx
      rcases List.mem_cons.1 hx with hx | hx
      · subst hx; omega
      · have := h.1 x hx
        omega

theorem insereNoLista_ordenada (l : List no_lista_palavras) (w : Cadeia) (n : Int)
    (h : OrdenadaPorLinha l) : OrdenadaPorLinha (insereNoLista l w n) := by
  rw [ordenada_iff] at h ⊢
  cases l with
  | nil => simp [insereNoLista]
  | cons p r =>
    rw [List.pairwise_cons] at h
    simp only [insereNoLista]
    split_ifs with hlt
    · rw [List.pairwise_cons, List.pairwise_cons]
      refine ⟨?_, h.1, h.2⟩
      intro x hx
      rcases List.mem_cons.1 hx with hx | hx
      · subst hx; simp only [criaNoListaPalavras]; omega
      · have := h.1 x hx
        simp only [criaNoListaPalavras]; omega
    · rw [List.pairwise_cons]
      refine ⟨?_, insereDepois_pairwise _ r h.2⟩
      intro x hx
      rcases List.mem_cons.1 ((insereDepois_perm _ r).mem_iff.1 hx) with hx | hx
      · subst hx; simp only [criaNoListaPalavras]; omega
      · exact h.1 x hx

theorem insereTodosLista_ordenada (pares : List (Cadeia × Int)) (l : List no_lista_palavras)
    (h : OrdenadaPorLinha l) : OrdenadaPorLinha (insereTodosLista l pares) := by
  induction pares generalizing l with
  | nil => exact h
  | cons p ps ih => exact ih _ (insereNoLista_ordenada l p.1 p.2 h)

theorem insereTodosLista_perm (pares : List (Cadeia × Int)) (l : List no_lista_palavras) :
    (insereTodosLista l pares).Perm
      (l ++ pares.map (fun p => criaNoListaPalavras p.1 p.2)) := by
  induction pares generalizing l with
  | nil => simp [insereTodosLista]
  | cons p ps ih =>
    have h := ih (insereNoLista l p.1 p.2)
    simp only [insereTodosLista, List.foldl_cons] at h ⊢
    refine h.trans ?_
    refine ((insereNoLista_perm l p.1 p.2).append_right _).trans ?_
    simp only [List.map_cons, List.cons_append]
    exact List.perm_middle.symm

theorem insereDepois_eq (n : no_lista_palavras) (l : List no_lista_palavras) :
    insereDepois n l =
      l.takeWhile (fun x => decide (x.linha < n.linha)) ++
        n :: l.dropWhile (fun x => decide (x.linha < n.linha)) := by
  induction l with
  | nil => simp [insereDepois]
  | cons p r ih =>
    simp only [insereDepois]
    split_ifs with h
    · have hd : decide (p.linha < n.linha) = true := by simpa using h
      simp [List.takeWhile_cons, List.dropWhile_cons, hd, ih]
    · have hd : decide (p.linha < n.linha) = false := by simpa using h
      simp [List.takeWhile_cons, List.dropWhile_cons, hd]

/-! ## Normalizer -/

theorem isalpha_tolower (c : Nat) (h : isalpha c = true) :
    isalpha (tolower c) = true ∧ tolower (tolower c) = tolower c := by
  simp only [isalpha, tolower, Bool.or_eq_true, Bool.and_eq_true, decide_eq_true_eq] at h ⊢
  split_ifs <;> omega

theorem normalizaPalavra_idem (x : Cadeia) :
    normalizaPalavra (normalizaPalavra x) = normalizaPalavra x := by
  induction x with
  | nil => rfl
  | cons c r ih =>
    simp only [normalizaPalavra]
    split_ifs with h
    · simp only [normalizaPalavra, (isalpha_tolower c h).1, (isalpha_tolower c h).2, ih,
        if_true]
    · exact ih

/-! ## Linked list: scan -/

theorem procuraNaListaLaco_eq (q : Cadeia) (l resp : List no_lista_palavras) (oc : Nat) :
    procuraNaListaLaco q l resp oc =
      (insereTodosLista resp (casam q l), oc + (casam q l).length) := by
  induction l generalizing resp oc with
  | nil => simp [procuraNaListaLaco, casam, insereTodosLista]
  | cons a r ih =>
    simp only [procuraNaListaLaco]
    split_ifs with h
    · have he : normalizaPalavra a.palavra = normalizaPalavra q :=
        ((strcmp_eq_zero_iff _ _).1 h).symm
      rw [ih]
      simp [casam, he, insereTodosLista]
      omega
    · have he : ¬ normalizaPalavra a.palavra = normalizaPalavra q :=
        fun e => h ((strcmp_eq_zero_iff _ _).2 e.symm)
      rw [ih]
      simp [casam, he]

theorem procuraNaLista_resposta (l : List no_lista_palavras) (q : Cadeia) :
    (procuraNaLista l q).respostaCabeca = insereTodosLista [] (casam q l) := by
  simp [procuraNaLista, procuraNaListaLaco_eq]

theorem procuraNaLista_ocorrencias (l : List no_lista_palavras) (q : Cadeia) :
    (procuraNaLista l q).ocorrencias = (casam q l).length := by
  simp [procuraNaLista, procuraNaListaLaco_eq]

/-! ## Ingestion pass -/

theorem lacoTokens_eq (linha : Int) (tokens : List Cadeia) (ix : Indices) :
    lacoTokens linha tokens ix =
      { cabeca_da_lista := insereTodosLista ix.cabeca_da_lista
          (tokens.map (fun token => (normalizaPalavra token, linha)))
        raiz_da_arvore := insereTodosArvore ix.raiz_da_arvore
          (tokens.map (fun token => (normalizaPalavra token, linha))) } := by
  induction tokens generalizing ix with
  | nil => simp [lacoTokens, insereTodosLista, insereTodosArvore]
  | cons t r ih => simp [lacoTokens, ih, insereTodosLista, insereTodosArvore]

theorem lacoLinhas_eq (arquivo : List Cadeia) (linha : Int) (ix : Indices) :
    lacoLinhas arquivo linha ix =
      { cabeca_da_lista := insereTodosLista ix.cabeca_da_lista (paresDe arquivo linha)
        raiz_da_arvore := insereTodosArvore ix.raiz_da_arvore (paresDe arquivo linha) } := by
  induction arquivo generalizing linha ix with
  | nil => simp [lacoLinhas, paresDe, insereTodosLista, insereTodosArvore]
  | cons a r ih =>
    simp [lacoLinhas, ih, lacoTokens_eq, paresDe, insereTodosLista, insereTodosArvore]

theorem indexa_eq (arquivo : List Cadeia) :
    indexa arquivo =
      { cabeca_da_lista := insereTodosLista [] (paresDe arquivo 1)
        raiz_da_arvore := insereTodosArvore .NULL (paresDe arquivo 1) } := by
  simp [indexa, lacoLinhas_eq]

theorem mem_paresDe (arquivo : List Cadeia) (linha : Int) (p : Cadeia × Int) :
    p ∈ paresDe arquivo linha → linha ≤ p.2 := by
  induction arquivo generalizing linha with
  | nil => simp [paresDe]
  | cons a r ih =>
    simp only [paresDe, List.mem_append, List.mem_map]
    rintro (⟨t, _, rfl⟩ | h)
    · exact le_refl _
    · have := ih (linha + 1) h
      omega

theorem paresDe_sorted (arquivo : List Cadeia) (linha : Int) :
    (paresDe arquivo linha).Pairwise (fun a b => a.2 ≤ b.2) := by
  induction arquivo generalizing linha with
  | nil => simp [paresDe]
  | cons a r ih =>
    simp only [paresDe]
    rw [List.pairwise_append]
    refine ⟨?_, ih (linha + 1), ?_⟩
    · rw [List.pairwise_map]
      exact List.pairwise_of_forall (fun _ _ => le_refl _)
    · intro x hx y hy
      have hy2 := mem_paresDe r (linha + 1) y hy
      simp only [List.mem_map] at hx
      obtain ⟨t, _, rfl⟩ := hx
      simp only
      omega

theorem linhasInseridas_sorted (arquivo : List Cadeia) (linha : Int) (w : Cadeia) :
    List.Sorted (fun a b : Int => a ≤ b) (linhasInseridas (paresDe arquivo linha) w) := by
  simp only [linhasInseridas, List.Sorted, List.pairwise_map]
  exact (paresDe_sorted arquivo linha).sublist (List.filter_sublist _)

theorem linhasInseridas_tokens (tokens : List Cadeia) (linha : Int) (w : Cadeia) :
    linhasInseridas (tokens.map (fun token => (normalizaPalavra token, linha))) w =
      List.replicate (tokens.filter (fun token => normalizaPalavra token = w)).length linha := by
  induction tokens with
  | nil => simp [linhasInseridas]
  | cons t r ih =>
    simp only [linhasInseridas, List.map_cons] at ih ⊢
    by_cases h : normalizaPalavra t = w
    · simp [List.filter_cons, h, ih, List.replicate_succ]
    · simp [List.filter_cons, h, ih]

theorem linhasInseridas_paresDe (arquivo : List Cadeia) (k : Nat) (w : Cadeia) :
    linhasInseridas (paresDe arquivo (k : Int)) w =
      (arquivo.enumFrom k).flatMap (fun p =>
        List.replicate ((strtok p.2).filter (fun token => normalizaPalavra token = w)).length
          (p.1 : Int)) := by
  induction arquivo generalizing k with
  | nil => simp [paresDe, linhasInseridas]
  | cons a r ih =>
    have h := ih (k + 1)
    push_cast at h
    simp only [paresDe, linhasInseridas_append, linhasInseridas_tokens, List.enumFrom_cons,
      List.flatMap_cons, h]

theorem linhasInseridas_eq_esperadas (arquivo : List Cadeia) (w : Cadeia) :
    linhasInseridas (paresDe arquivo 1) w = linhasEsperadas arquivo w := by
  have h := linhasInseridas_paresDe arquivo 1 w
  simpa [linhasEsperadas] using h

theorem mem_map_fst_paresDe (arquivo : List Cadeia) (linha : Int) (w : Cadeia) :
    w ∈ (paresDe arquivo linha).map Prod.fst ↔
      ∃ a ∈ arquivo, ∃ token ∈ strtok a, normalizaPalavra token = w := by
  induction arquivo generalizing linha with
  | nil => simp [paresDe]
  | cons a r ih =>
    simp only [paresDe, List.map_append, List.mem_append, ih, List.map_map, List.mem_map,
      List.mem_cons, exists_eq_or_imp, Function.comp]

/-! ## The two indexes after the ingestion pass -/

theorem paresDe_normalizados (arquivo : List Cadeia) (linha : Int) (p : Cadeia × Int)
    (hp : p ∈ paresDe arquivo linha) : normalizaPalavra p.1 = p.1 := by
  induction arquivo generalizing linha with
  | nil => simp [paresDe] at hp
  | cons a r ih =>
    simp only [paresDe, List.mem_append, List.mem_map] at hp
    rcases hp with ⟨t, _, rfl⟩ | h
    · exact normalizaPalavra_idem t
    · exact ih (linha + 1) h

theorem casam_perm {l l2 : List no_lista_palavras} (q : Cadeia) (h : l.Perm l2) :
    (casam q l).Perm (casam q l2) :=
  (h.filter _).map _

theorem casam_cons (q : Cadeia) (a : no_lista_palavras) (l : List no_lista_palavras) :
    casam q (a :: l) =
      if normalizaPalavra a.palavra = normalizaPalavra q then
        (normalizaPalavra a.palavra, a.linha) :: casam q l
      else casam q l := by
  simp only [casam, List.filter_cons]
  split_ifs with h1 h2 h2
  · rfl
  · exact absurd h2 (by simpa using h1)
  · exact absurd h2 (by simpa using h1)
  · rfl

theorem casam_pares (q : Cadeia) (P : List (Cadeia × Int))
    (hP : ∀ p ∈ P, normalizaPalavra p.1 = p.1) :
    casam q (P.map (fun p => criaNoListaPalavras p.1 p.2)) =
      P.filter (fun p => p.1 = normalizaPalavra q) := by
  induction P with
  | nil => simp [casam]
  | cons p r ih =>
    have hp := hP p (List.mem_cons_self _ _)
    have hr := ih (fun x hx => hP x (List.mem_cons_of_mem _ hx))
    rw [List.map_cons, casam_cons, hr]
    simp only [criaNoListaPalavras, hp, List.filter_cons]
    by_cases h : p.1 = normalizaPalavra q
    · simp [h]
      rw [← h]
    · simp [h]

theorem linhas_resposta_perm (l : List no_lista_palavras) (q : Cadeia) :
    (linhasDaLista (procuraNaLista l q).respostaCabeca).Perm ((casam q l).map Prod.snd) := by
  rw [procuraNaLista_resposta]
  have h := (insereTodosLista_perm (casam q l) []).map (fun no => no.linha)
  simpa [linhasDaLista, criaNoListaPalavras, Function.comp] using h

theorem procuraNaLista_ordenada (l : List no_lista_palavras) (q : Cadeia) :
    OrdenadaPorLinha (procuraNaLista l q).respostaCabeca := by
  rw [procuraNaLista_resposta]
  exact insereTodosLista_ordenada _ [] (by simp [OrdenadaPorLinha, linhasDaLista])

theorem casam_indexa (arquivo : List Cadeia) (q : Cadeia) :
    (casam q (indexa arquivo).cabeca_da_lista).Perm
      ((paresDe arquivo 1).filter (fun p => p.1 = normalizaPalavra q)) := by
  rw [indexa_eq]
  have h := casam_perm q (insereTodosLista_perm (paresDe arquivo 1) [])
  simp only [List.nil_append] at h
  rw [casam_pares q _ (fun p hp => paresDe_normalizados arquivo 1 p hp)] at h
  exact h

/-- The list query after ingestion returns, head to tail, the lines
inserted with the normalized query, in insertion order. -/
theorem linhas_procuraNaLista_indexa (arquivo : List Cadeia) (q : Cadeia) :
    linhasDaLista (procuraNaLista (indexa arquivo).cabeca_da_lista q).respostaCabeca =
      linhasInseridas (paresDe arquivo 1) (normalizaPalavra q) := by
  apply List.eq_of_perm_of_sorted (r := fun a b : Int => a ≤ b)
  · exact (linhas_resposta_perm _ q).trans ((casam_indexa arquivo q).map Prod.snd)
  · exact procuraNaLista_ordenada _ q
  · exact linhasInseridas_sorted arquivo 1 _

theorem ocorrencias_procuraNaLista_indexa (arquivo : List Cadeia) (q : Cadeia) :
    (procuraNaLista (indexa arquivo).cabeca_da_lista q).ocorrencias =
      (linhasInseridas (paresDe arquivo 1) (normalizaPalavra q)).length := by
  rw [procuraNaLista_ocorrencias, (casam_indexa arquivo q).length_eq]
  simp [linhasInseridas]

theorem campos_buscaArvore_indexa (arquivo : List Cadeia) (w : Cadeia) :
    campos (buscaArvore (indexa arquivo).raiz_da_arvore w) =
      if linhasInseridas (paresDe arquivo 1) w = [] then none
      else some (w, linhasInseridas (paresDe arquivo 1) w,
        (linhasInseridas (paresDe arquivo 1) w).length) := by
  rw [indexa_eq]
  exact campos_buscaArvore_insereTodosArvore _ w

/-! ## Properties of the index -/

/-- C1: after the ingestion pass, searching the tree for a normalized word
`w` that occurs in the text returns a node with key `w`, and its line array,
once sorted, is the list of the lines on which `w` occurs, line `n` listed
once per token of line `n` that normalizes to `w`. -/
theorem buscaArvore_indexa_linhas (arquivo : List Cadeia) (w : Cadeia)
    (h : ∃ a ∈ arquivo, ∃ token ∈ strtok a, normalizaPalavra token = w) :
    ∃ linhas ocorrencias esquerda direita,
      buscaArvore (indexa arquivo).raiz_da_arvore w =
        .no w linhas ocorrencias esquerda direita ∧
      List.insertionSort (fun a b : Int => a ≤ b) linhas = linhasEsperadas arquivo w := by
  have hmem : w ∈ (paresDe arquivo 1).map Prod.fst := (mem_map_fst_paresDe arquivo 1 w).2 h
  have hne : linhasInseridas (paresDe arquivo 1) w ≠ [] :=
    fun e => (linhasInseridas_eq_nil_iff _ w).1 e hmem
  have hc := campos_buscaArvore_indexa arquivo w
  rw [if_neg hne] at hc
  obtain ⟨e, d, hno⟩ := (campos_eq_some_iff _ _ _ _).1 hc
  refine ⟨_, _, e, d, hno, ?_⟩
  rw [(linhasInseridas_sorted arquivo 1 w).insertionSort_eq]
  exact linhasInseridas_eq_esperadas arquivo w

/-- The word `cat` of the example file occurs in it, and the tree search
finds its node with the expected lines. -/
theorem buscaArvore_indexa_linhas_witness :
    (∃ a ∈ arquivoExemplo, ∃ token ∈ strtok a, normalizaPalavra token = bytes "cat") ∧
    ∃ linhas ocorrencias esquerda direita,
      buscaArvore (indexa arquivoExemplo).raiz_da_arvore (bytes "cat") =
        .no (bytes "cat") linhas ocorrencias esquerda direita ∧
      List.insertionSort (fun a b : Int => a ≤ b) linhas =
        linhasEsperadas arquivoExemplo (bytes "cat") :=
  ⟨⟨bytes "Dog cat CAT\n", by decide, bytes "CAT", by decide, by decide⟩,
    buscaArvore_indexa_linhas arquivoExemplo (bytes "cat")
      ⟨bytes "Dog cat CAT\n", by decide, bytes "CAT", by decide, by decide⟩⟩

/-- C2: the two indexes built by one ingestion pass answer alike. When the
tree search for the normalized query returns a node, the line numbers of
the list result, head to tail, are that node's line array; and the list
result is empty exactly when the tree search returns no node. -/
theorem procuraNaLista_buscaArvore_indexa (arquivo : List Cadeia) (q : Cadeia) :
    (∀ chave linhas ocorrencias esquerda direita,
      buscaArvore (indexa arquivo).raiz_da_arvore (normalizaPalavra q) =
        .no chave linhas ocorrencias esquerda direita →
      linhasDaLista (procuraNaLista (indexa arquivo).cabeca_da_lista q).respostaCabeca =
        linhas) ∧
    ((procuraNaLista (indexa arquivo).cabeca_da_lista q).respostaCabeca = [] ↔
      buscaArvore (indexa arquivo).raiz_da_arvore (normalizaPalavra q) = .NULL) := by
  have hl := linhas_procuraNaLista_indexa arquivo q
  have hc := campos_buscaArvore_indexa arquivo (normalizaPalavra q)
  constructor
  · intro k ls oc e d hno
    rw [hno] at hc
    by_cases hnil : linhasInseridas (paresDe arquivo 1) (normalizaPalavra q) = []
    · simp [hnil, campos] at hc
    · rw [if_neg hnil] at hc
      simp only [campos, Option.some.injEq, Prod.mk.injEq] at hc
      rw [hl, hc.2.1]
  · rw [← campos_eq_none_iff, hc]
    have hiff : (procuraNaLista (indexa arquivo).cabeca_da_lista q).respostaCabeca = [] ↔
        linhasInseridas (paresDe arquivo 1) (normalizaPalavra q) = [] := by
      rw [← hl]
      simp [linhasDaLista]
    rw [hiff]
    by_cases hnil : linhasInseridas (paresDe arquivo 1) (normalizaPalavra q) = []
    · simp [hnil]
    · simp [hnil]

/-- C3: in the example file both searches give lines `[1, 2]` for `dog`,
`[1, 2, 2]` for `cat`, `[3]` for `bird`, and no match for `fish`. -/
theorem consultas_arquivoExemplo :
    linhasDaLista (procuraNaLista (indexa arquivoExemplo).cabeca_da_lista
        (bytes "dog")).respostaCabeca = [1, 2] ∧
    campos (buscaArvore (indexa arquivoExemplo).raiz_da_arvore
        (normalizaPalavra (bytes "dog"))) = some (bytes "dog", [1, 2], 2) ∧
    linhasDaLista (procuraNaLista (indexa arquivoExemplo).cabeca_da_lista
        (bytes "cat")).respostaCabeca = [1, 2, 2] ∧
    campos (buscaArvore (indexa arquivoExemplo).raiz_da_arvore
        (normalizaPalavra (bytes "cat"))) = some (bytes "cat", [1, 2, 2], 3) ∧
    linhasDaLista (procuraNaLista (indexa arquivoExemplo).cabeca_da_lista
        (bytes "bird")).respostaCabeca = [3] ∧
    campos (buscaArvore (indexa arquivoExemplo).raiz_da_arvore
        (normalizaPalavra (bytes "bird"))) = some (bytes "bird", [3], 1) ∧
    (procuraNaLista (indexa arquivoExemplo).cabeca_da_lista (bytes "fish")).respostaCabeca
      = [] ∧
    (procuraNaLista (indexa arquivoExemplo).cabeca_da_lista (bytes "fish")).ocorrencias
      = 0 ∧
    buscaArvore (indexa arquivoExemplo).raiz_da_arvore (normalizaPalavra (bytes "fish"))
      = .NULL := by
  decide

/-- C4: when the normalized query differs from the normalized form of every
token of the text, the list scan returns an empty result with count `0` and
the not-found report, and the tree search returns no node. -/
theorem consulta_ausente (arquivo : List Cadeia) (q : Cadeia)
    (h : ∀ a ∈ arquivo, ∀ token ∈ strtok a, normalizaPalavra token ≠ normalizaPalavra q) :
    (procuraNaLista (indexa arquivo).cabeca_da_lista q).respostaCabeca = [] ∧
    (procuraNaLista (indexa arquivo).cabeca_da_lista q).ocorrencias = 0 ∧
    (procuraNaLista (indexa arquivo).cabeca_da_lista q).mensagem =
      Mensagem.naoEncontrada q ∧
    buscaArvore (indexa arquivo).raiz_da_arvore (normalizaPalavra q) = .NULL := by
  have hnil : linhasInseridas (paresDe arquivo 1) (normalizaPalavra q) = [] := by
    rw [linhasInseridas_eq_nil_iff, mem_map_fst_paresDe]
    rintro ⟨a, ha, t, ht, e⟩
    exact h a ha t ht e
  have hoc := ocorrencias_procuraNaLista_indexa arquivo q
  rw [hnil] at hoc
  have hl := linhas_procuraNaLista_indexa arquivo q
  rw [hnil] at hl
  have hc := campos_buscaArvore_indexa arquivo (normalizaPalavra q)
  rw [if_pos hnil] at hc
  refine ⟨by simpa [linhasDaLista] using hl, by simpa using hoc, ?_,
    (campos_eq_none_iff _).1 hc⟩
  have hoc0 : (procuraNaLista (indexa arquivo).cabeca_da_lista q).ocorrencias = 0 := by
    simpa using hoc
  simp only [procuraNaLista] at hoc0 ⊢
  simp [hoc0]

/-- The query `fish` matches no token of the example file, and both
searches come back empty. -/
theorem consulta_ausente_witness :
    (∀ a ∈ arquivoExemplo, ∀ token ∈ strtok a,
      normalizaPalavra token ≠ normalizaPalavra (bytes "fish")) ∧
    (procuraNaLista (indexa arquivoExemplo).cabeca_da_lista (bytes "fish")).respostaCabeca
      = [] ∧
    (procuraNaLista (indexa arquivoExemplo).cabeca_da_lista (bytes "fish")).ocorrencias
      = 0 ∧
    (procuraNaLista (indexa arquivoExemplo).cabeca_da_lista (bytes "fish")).mensagem =
      Mensagem.naoEncontrada (bytes "fish") ∧
    buscaArvore (indexa arquivoExemplo).raiz_da_arvore (normalizaPalavra (bytes "fish"))
      = .NULL :=
  ⟨by decide, consulta_ausente arquivoExemplo (bytes "fish") (by decide)⟩

/-- C5, the claim as stated, refuted at a concrete input: into the
line-sorted list `(a,1), (b,1)` the pair `(c,1)` goes after `a` and before
`b`, while the stable rule would put it after `b`; inserting `(a,1)`,
`(b,1)`, `(c,1)` into the empty list yields `a, c, b`. -/
theorem insereNoLista_nao_estavel :
    OrdenadaPorLinha [⟨bytes "a", 1⟩, ⟨bytes "b", 1⟩] ∧
    insereNoLista [⟨bytes "a", 1⟩, ⟨bytes "b", 1⟩] (bytes "c") 1 =
      [⟨bytes "a", 1⟩, ⟨bytes "c", 1⟩, ⟨bytes "b", 1⟩] ∧
    insereEstavel [⟨bytes "a", 1⟩, ⟨bytes "b", 1⟩] (bytes "c") 1 =
      [⟨bytes "a", 1⟩, ⟨bytes "b", 1⟩, ⟨bytes "c", 1⟩] ∧
    insereNoLista [⟨bytes "a", 1⟩, ⟨bytes "b", 1⟩] (bytes "c") 1 ≠
      insereEstavel [⟨bytes "a", 1⟩, ⟨bytes "b", 1⟩] (bytes "c") 1 ∧
    insereTodosLista [] [(bytes "a", 1), (bytes "b", 1), (bytes "c", 1)] =
      [⟨bytes "a", 1⟩, ⟨bytes "c", 1⟩, ⟨bytes "b", 1⟩] := by
  refine ⟨?_, by decide, by decide, by decide, by decide⟩
  simp [OrdenadaPorLinha, linhasDaLista]

/-- C5, amended: the new node becomes the head when the list is empty or
`linha` is smaller than the head's line; otherwise it is placed after the
head, immediately before the first later node whose line is greater than
or equal to `linha` (at the end if there is none). Hence, when words are
inserted with one and the same line into the empty list, the first stays
at the head and the others follow it in reverse order of insertion. -/
theorem insereNoLista_posicao :
    (∀ (cabeca : List no_lista_palavras) (palavra : Cadeia) (linha : Int),
      insereNoLista cabeca palavra linha =
        match cabeca with
        | [] => [criaNoListaPalavras palavra linha]
        | primeiro :: resto =>
          if linha < primeiro.linha then
            criaNoListaPalavras palavra linha :: primeiro :: resto
          else
            primeiro :: (resto.takeWhile (fun no => decide (no.linha < linha)) ++
              criaNoListaPalavras palavra linha ::
                resto.dropWhile (fun no => decide (no.linha < linha)))) ∧
    (∀ (p : Cadeia) (ps : List Cadeia) (linha : Int),
      insereTodosLista [] ((p, linha) :: ps.map (fun w => (w, linha))) =
        criaNoListaPalavras p linha ::
          ps.reverse.map (fun w => criaNoListaPalavras w linha)) := by
  constructor
  · intro cabeca palavra linha
    cases cabeca with
    | nil => rfl
    | cons primeiro resto =>
      simp only [insereNoLista]
      split_ifs with h
      · rfl
      · rw [insereDepois_eq]
        rfl
  · intro p ps linha
    induction ps using List.reverseRecOn with
    | nil => simp [insereTodosLista, insereNoLista]
    | append_singleton qs q ih =>
      have happ : (p, linha) :: (qs ++ [q]).map (fun w => (w, linha)) =
          ((p, linha) :: qs.map (fun w => (w, linha))) ++ [(q, linha)] := by simp
      rw [happ]
      simp only [insereTodosLista, List.foldl_append, List.foldl_cons, List.foldl_nil] at ih ⊢
      rw [ih]
      simp only [insereNoLista, criaNoListaPalavras, lt_self_iff_false, if_false,
        List.reverse_append, List.reverse_cons, List.reverse_nil, List.nil_append,
        List.singleton_append, List.map_cons]
      congr 1
      cases hq : (List.map (fun w => ({ palavra := w, linha := linha } : no_lista_palavras))
          qs.reverse) with
      | nil => simp [insereDepois]
      | cons a r =>
        have ha : a.linha = linha := by
          have hm : a ∈ List.map (fun w => ({ palavra := w, linha := linha } :
              no_lista_palavras)) qs.reverse := by rw [hq]; exact List.mem_cons_self _ _
          simp only [List.mem_map] at hm
          obtain ⟨w, _, rfl⟩ := hm
          rfl
        simp [insereDepois, ha]

/-- C6: `insereNoLista` maps a line-sorted list to a line-sorted list, and
any sequence of insertions from the empty list, whatever the order of the
line numbers, yields a list whose lines are non-decreasing. -/
theorem insereNoLista_mantem_ordem :
    (∀ (cabeca : List no_lista_palavras) (palavra : Cadeia) (linha : Int),
      OrdenadaPorLinha cabeca → OrdenadaPorLinha (insereNoLista cabeca palavra linha)) ∧
    (∀ pares : List (Cadeia × Int), OrdenadaPorLinha (insereTodosLista [] pares)) :=
  ⟨fun cabeca palavra linha h => insereNoLista_ordenada cabeca palavra linha h,
    fun pares => insereTodosLista_ordenada pares []
      (by simp [OrdenadaPorLinha, linhasDaLista])⟩

/-- C7: the result of `procuraNaLista` has one node for each node of the
input whose normalized word is the normalized query, carrying that node's
line and the normalized word; its lines are non-decreasing; the count is
the number of result nodes; the not-found report is made exactly when the
count is `0`. -/
theorem procuraNaLista_resultado (cabeca : List no_lista_palavras) (q : Cadeia) :
    (procuraNaLista cabeca q).respostaCabeca.Perm
      ((cabeca.filter (fun no => normalizaPalavra no.palavra = normalizaPalavra q)).map
        (fun no => criaNoListaPalavras (normalizaPalavra no.palavra) no.linha)) ∧
    OrdenadaPorLinha (procuraNaLista cabeca q).respostaCabeca ∧
    (procuraNaLista cabeca q).ocorrencias = (procuraNaLista cabeca q).respostaCabeca.length ∧
    ((procuraNaLista cabeca q).mensagem = Mensagem.naoEncontrada q ↔
      (procuraNaLista cabeca q).ocorrencias = 0) := by
  have hperm : (procuraNaLista cabeca q).respostaCabeca.Perm
      ((casam q cabeca).map (fun p => criaNoListaPalavras p.1 p.2)) := by
    rw [procuraNaLista_resposta]
    simpa using insereTodosLista_perm (casam q cabeca) []
  refine ⟨?_, procuraNaLista_ordenada cabeca q, ?_, ?_⟩
  · simpa [casam, Function.comp] using hperm
  · rw [procuraNaLista_ocorrencias, hperm.length_eq]
    simp
  · simp only [procuraNaLista]
    split_ifs with h
    · simp only [false_iff, reduceCtorEq]
      omega
    · simp only [true_iff]
      omega

/-- C8: `criaNoArvore` maps a tree with the binary-search-tree property to
a tree with that property, and every sequence of insertions from the empty
tree yields a tree in which each node's key is greater than every key of
its left subtree and smaller than every key of its right subtree, in
byte-wise lexicographic order. -/
theorem criaNoArvore_mantem_BST :
    (∀ (raiz : no_arvore_palavras) (palavra : Cadeia) (linha : Int),
      BST raiz → BST (criaNoArvore raiz palavra linha)) ∧
    (∀ pares : List (Cadeia × Int), BST (insereTodosArvore .NULL pares)) :=
  ⟨fun raiz palavra linha h => BST_criaNoArvore raiz palavra linha h,
    fun pares => BST_insereTodosArvore pares .NULL trivial⟩

/-- C9: after any sequence of insertions from the empty tree no two nodes
hold the same key, and the number of nodes is the number of distinct words
inserted. -/
theorem chaves_unicas (pares : List (Cadeia × Int)) :
    (chaves (insereTodosArvore .NULL pares)).Nodup ∧
    numNos (insereTodosArvore .NULL pares) = (pares.map Prod.fst).dedup.length := by
  have hnd := BST_nodup_chaves _ (BST_insereTodosArvore pares .NULL trivial)
  refine ⟨hnd, ?_⟩
  rw [numNos_eq_length_chaves]
  apply List.Perm.length_eq
  rw [List.perm_ext_iff_of_nodup hnd (List.nodup_dedup _)]
  intro x
  rw [mem_chaves_insereTodosArvore, List.mem_dedup]
  simp [chaves]

/-- C10: in a tree built by insertions from the empty tree, `buscaArvore`
returns the node whose key is `w` when `w` was inserted at least once, and
no node otherwise. -/
theorem buscaArvore_correta (pares : List (Cadeia × Int)) (w : Cadeia) :
    (w ∈ pares.map Prod.fst →
      ∃ linhas ocorrencias esquerda direita,
        buscaArvore (insereTodosArvore .NULL pares) w =
          .no w linhas ocorrencias esquerda direita) ∧
    (w ∉ pares.map Prod.fst → buscaArvore (insereTodosArvore .NULL pares) w = .NULL) := by
  have hc := campos_buscaArvore_insereTodosArvore pares w
  constructor
  · intro hw
    have hne : linhasInseridas pares w ≠ [] :=
      fun e => (linhasInseridas_eq_nil_iff _ w).1 e hw
    rw [if_neg hne] at hc
    obtain ⟨e, d, hno⟩ := (campos_eq_some_iff _ _ _ _).1 hc
    exact ⟨_, _, e, d, hno⟩
  · intro hw
    rw [if_pos ((linhasInseridas_eq_nil_iff _ w).2 hw)] at hc
    exact (campos_eq_none_iff _).1 hc


/-! ## Tree: nodes and their fields -/

theorem menor_trans {a b c : Cadeia} (h1 : menor a b) (h2 : menor b c) : menor a c := by
  unfold menor at *
  induction h1 generalizing c with
  | nil =>
    cases h2 with
    | cons h => exact List.Lex.nil
    | rel h => exact List.Lex.nil
  | cons h ih =>
    cases h2 with
    | cons h3 => exact List.Lex.cons (ih h3)
    | rel h3 => exact List.Lex.rel h3
  | rel h =>
    cases h2 with
    | cons h3 => exact List.Lex.rel h
    | rel h3 => exact List.Lex.rel (lt_trans h h3)

theorem mem_chaves_of_mem_nos (t : no_arvore_palavras) (k : Cadeia) (ls : List Int) (oc : Nat)
    (h : (k, ls, oc) ∈ nos t) : k ∈ chaves t := by
  induction t with
  | NULL => simp [nos] at h
  | no k2 ls2 oc2 e d ihe ihd =>
    simp only [nos, List.mem_cons, List.mem_append, Prod.mk.injEq] at h
    simp only [chaves, List.mem_append, List.mem_cons]
    rcases h with h | h | h
    · exact Or.inr (Or.inl h.1)
    · exact Or.inl (ihe h)
    · exact Or.inr (Or.inr (ihd h))

theorem numNos_eq_length_nos (t : no_arvore_palavras) : numNos t = (nos t).length := by
  induction t with
  | NULL => rfl
  | no k ls oc e d ihe ihd => simp [numNos, nos, ihe, ihd]; omega

theorem acrescenta_ausente (t : no_arvore_palavras) (w : Cadeia) (l : Int)
    (h : w ∉ chaves t) : acrescenta w l t = t := by
  induction t with
  | NULL => rfl
  | no k ls oc e d ihe ihd =>
    simp only [chaves, List.mem_append, List.mem_cons, not_or] at h
    have hk : ¬ k = w := fun e => h.2.1 e.symm
    simp [acrescenta, hk, ihe h.1, ihd h.2.2]

theorem criaNoArvore_presente (t : no_arvore_palavras) (w : Cadeia) (l : Int)
    (hb : BST t) (hc : Coerente t) (hw : w ∈ chaves t) :
    criaNoArvore t w l = acrescenta w l t := by
  induction t with
  | NULL => simp [chaves] at hw
  | no k ls oc e d ihe ihd =>
    obtain ⟨he, hd, hbe, hbd⟩ := hb
    obtain ⟨hoc, hce, hcd⟩ := hc
    simp only [criaNoArvore]
    split_ifs with h1 h2
    · have hk : w = k := (strcmp_eq_zero_iff w k).1 h1
      subst hk
      have hne : w ∉ chaves e := fun hx => menor_irrefl w (he w hx)
      have hnd : w ∉ chaves d := fun hx => menor_irrefl w (hd w hx)
      subst hoc
      have hr := realloc_set_length ls l
      simp only [Nat.add_sub_cancel] at hr
      simp [acrescenta, acrescenta_ausente e w l hne, acrescenta_ausente d w l hnd, hr]
    · have hlt : menor w k := (strcmp_neg_iff w k).1 h2
      have hk : ¬ k = w := fun e => h1 ((strcmp_eq_zero_iff w k).2 e.symm)
      have hnd : w ∉ chaves d := fun hx => menor_asymm hlt (hd w hx)
      have hwe : w ∈ chaves e := by
        simp only [chaves, List.mem_append, List.mem_cons] at hw
        rcases hw with hw | hw | hw
        · exact hw
        · exact absurd hw.symm hk
        · exact absurd hw hnd
      simp [acrescenta, hk, ihe hbe hce hwe, acrescenta_ausente d w l hnd]
    · have hgt : menor k w := (strcmp_pos_iff w k).1 (by omega)
      have hk : ¬ k = w := fun e => h1 ((strcmp_eq_zero_iff w k).2 e.symm)
      have hne : w ∉ chaves e := fun hx => menor_asymm hgt (he w hx)
      have hwd : w ∈ chaves d := by
        simp only [chaves, List.mem_append, List.mem_cons] at hw
        rcases hw with hw | hw | hw
        · exact absurd hw hne
        · exact absurd hw.symm hk
        · exact hw
      simp [acrescenta, hk, ihd hbd hcd hwd, acrescenta_ausente e w l hne]

theorem nos_criaNoArvore_ausente (t : no_arvore_palavras) (w : Cadeia) (l : Int)
    (hw : w ∉ chaves t) : (nos (criaNoArvore t w l)).Perm ((w, [l], 1) :: nos t) := by
  induction t with
  | NULL => simp [criaNoArvore, criaNoArvorePalavras, nos]
  | no k ls oc e d ihe ihd =>
    simp only [chaves, List.mem_append, List.mem_cons, not_or] at hw
    have h1 : ¬ strcmp w k = 0 := fun h => hw.2.1 ((strcmp_eq_zero_iff w k).1 h)
    simp only [criaNoArvore, if_neg h1]
    split_ifs with h2
    · simp only [nos]
      refine (List.Perm.cons _ ((ihe hw.1).append_right _)).trans ?_
      exact List.Perm.swap _ _ _
    · simp only [nos]
      refine (List.Perm.cons _ ((ihd hw.2.2).append_left _)).trans ?_
      refine (List.Perm.cons _ List.perm_middle).trans ?_
      exact List.Perm.swap _ _ _

theorem buscaArvore_criaNoArvore_ausente (t : no_arvore_palavras) (w : Cadeia) (l : Int)
    (hw : w ∉ chaves t) :
    buscaArvore (criaNoArvore t w l) w = .no w [l] 1 .NULL .NULL := by
  have h0 : strcmp w w = 0 := (strcmp_eq_zero_iff w w).2 rfl
  induction t with
  | NULL => simp [criaNoArvore, criaNoArvorePalavras, buscaArvore, h0]
  | no k ls oc e d ihe ihd =>
    simp only [chaves, List.mem_append, List.mem_cons, not_or] at hw
    have h1 : ¬ strcmp w k = 0 := fun h => hw.2.1 ((strcmp_eq_zero_iff w k).1 h)
    simp only [criaNoArvore, if_neg h1]
    split_ifs with h2
    · simp only [buscaArvore, if_neg h1, if_pos h2]
      exact ihe hw.1
    · simp only [buscaArvore, if_neg h1, if_neg h2]
      exact ihd hw.2.2

theorem campos_buscaArvore_of_mem_nos (t : no_arvore_palavras) (k : Cadeia) (ls : List Int)
    (oc : Nat) (hb : BST t) (h : (k, ls, oc) ∈ nos t) :
    campos (buscaArvore t k) = some (k, ls, oc) := by
  induction t with
  | NULL => simp [nos] at h
  | no k2 ls2 oc2 e d ihe ihd =>
    obtain ⟨he, hd, hbe, hbd⟩ := hb
    simp only [nos, List.mem_cons, List.mem_append, Prod.mk.injEq] at h
    rcases h with h | h | h
    · obtain ⟨rfl, rfl, rfl⟩ := h
      have h0 : strcmp k k = 0 := (strcmp_eq_zero_iff k k).2 rfl
      simp [buscaArvore, h0, campos]
    · have hlt : menor k k2 := he k (mem_chaves_of_mem_nos e k ls oc h)
      have h2 : strcmp k k2 < 0 := (strcmp_neg_iff k k2).2 hlt
      have h1 : ¬ strcmp k k2 = 0 := by omega
      simp only [buscaArvore, if_neg h1, if_pos h2]
      exact ihe hbe h
    · have hgt : menor k2 k := hd k (mem_chaves_of_mem_nos d k ls oc h)
      have h2 : 0 < strcmp k k2 := (strcmp_pos_iff k k2).2 hgt
      have h1 : ¬ strcmp k k2 = 0 := by omega
      have h3 : ¬ strcmp k k2 < 0 := by omega
      simp only [buscaArvore, if_neg h1, if_neg h3]
      exact ihd hbd h

theorem Coerente_insereTodosArvore (pares : List (Cadeia × Int)) (t : no_arvore_palavras)
    (h : Coerente t) : Coerente (insereTodosArvore t pares) := by
  induction pares generalizing t with
  | nil => exact h
  | cons p ps ih => exact ih _ (Coerente_criaNoArvore t p.1 p.2 h)

theorem Coerente_mem_nos (t : no_arvore_palavras) (k : Cadeia) (ls : List Int) (oc : Nat)
    (hc : Coerente t) (h : (k, ls, oc) ∈ nos t) : oc = ls.length := by
  induction t with
  | NULL => simp [nos] at h
  | no k2 ls2 oc2 e d ihe ihd =>
    obtain ⟨hoc, hce, hcd⟩ := hc
    simp only [nos, List.mem_cons, List.mem_append, Prod.mk.injEq] at h
    rcases h with h | h | h
    · obtain ⟨_, rfl, rfl⟩ := h
      exact hoc
    · exact ihe hce h
    · exact ihd hcd h

/-- A node of a tree built from the empty tree holds exactly the lines
inserted with its key, in call order, and their number as counter. -/
theorem mem_nos_insereTodosArvore (pares : List (Cadeia × Int)) (k : Cadeia) (ls : List Int)
    (oc : Nat) (h : (k, ls, oc) ∈ nos (insereTodosArvore .NULL pares)) :
    ls = linhasInseridas pares k ∧ oc = (linhasInseridas pares k).length := by
  have hb := BST_insereTodosArvore pares .NULL trivial
  have h1 := campos_buscaArvore_of_mem_nos _ k ls oc hb h
  rw [campos_buscaArvore_insereTodosArvore] at h1
  split_ifs at h1 with hnil
  simp only [Option.some.injEq, Prod.mk.injEq, true_and] at h1
  exact ⟨h1.1.symm, h1.2.symm⟩

theorem numNos_acrescenta (t : no_arvore_palavras) (w : Cadeia) (l : Int) :
    numNos (acrescenta w l t) = numNos t := by
  induction t with
  | NULL => rfl
  | no k ls oc e d ihe ihd => simp [acrescenta, numNos, ihe, ihd]

/-! ## Properties of the tree operations -/

/-- C11: on a tree that is BST-ordered and whose nodes each hold an array
of `ocorrencias` cells, `criaNoArvore` with a key `w` already present
creates no node and changes only the node of key `w`, raising its counter
by one and appending `l` after the prior entries of its line array; with a
key `w` not present it keeps every node as it was and creates exactly one
node, a leaf with key `w`, counter `1` and line array `[l]`. -/
theorem criaNoArvore_efeito (raiz : no_arvore_palavras) (w : Cadeia) (l : Int)
    (hb : BST raiz) (hc : Coerente raiz) :
    (w ∈ chaves raiz →
      criaNoArvore raiz w l = acrescenta w l raiz ∧
      numNos (criaNoArvore raiz w l) = numNos raiz) ∧
    (w ∉ chaves raiz →
      (nos (criaNoArvore raiz w l)).Perm ((w, [l], 1) :: nos raiz) ∧
      numNos (criaNoArvore raiz w l) = numNos raiz + 1 ∧
      buscaArvore (criaNoArvore raiz w l) w = .no w [l] 1 .NULL .NULL) := by
  constructor
  · intro hw
    have h := criaNoArvore_presente raiz w l hb hc hw
    exact ⟨h, by rw [h, numNos_acrescenta]⟩
  · intro hw
    have hp := nos_criaNoArvore_ausente raiz w l hw
    refine ⟨hp, ?_, buscaArvore_criaNoArvore_ausente raiz w l hw⟩
    rw [numNos_eq_length_nos, numNos_eq_length_nos, hp.length_eq]
    rfl

/-- The example tree is BST-ordered with arrays as long as the counters and
holds the key `cat`; inserting `(cat, 2)` changes the node of `cat` alone
and adds no node. -/
theorem criaNoArvore_efeito_witness :
    BST arvoreExemplo ∧ Coerente arvoreExemplo ∧ bytes "cat" ∈ chaves arvoreExemplo ∧
    criaNoArvore arvoreExemplo (bytes "cat") 2 = acrescenta (bytes "cat") 2 arvoreExemplo ∧
    numNos (criaNoArvore arvoreExemplo (bytes "cat") 2) = numNos arvoreExemplo :=
  ⟨by decide, by decide, by decide,
    (criaNoArvore_efeito arvoreExemplo (bytes "cat") 2 (by decide) (by decide)).1
      (by decide)⟩

/-- C12: after any sequence of insertions from the empty tree, every node
has a counter equal to the length of its line array, and that counter is
the number of insertions made with the node's key. -/
theorem ocorrencias_eq_comprimento (pares : List (Cadeia × Int)) :
    Coerente (insereTodosArvore .NULL pares) ∧
    ∀ k ls oc, (k, ls, oc) ∈ nos (insereTodosArvore .NULL pares) →
      oc = ls.length ∧ oc = (pares.filter (fun p => p.1 = k)).length := by
  have hc := Coerente_insereTodosArvore pares .NULL trivial
  refine ⟨hc, ?_⟩
  intro k ls oc h
  refine ⟨Coerente_mem_nos _ k ls oc hc h, ?_⟩
  rw [(mem_nos_insereTodosArvore pares k ls oc h).2]
  simp [linhasInseridas]

/-! ## Properties of the normalizer -/

theorem normalizaPalavra_eq_filter_map (x : Cadeia) :
    normalizaPalavra x = (x.filter isalpha).map tolower := by
  induction x with
  | nil => rfl
  | cons c r ih =>
    simp only [normalizaPalavra, List.filter_cons]
    split_ifs with h
    · simp [ih]
    · exact ih

theorem normalizaPalavra_eq_nil_iff (x : Cadeia) :
    normalizaPalavra x = [] ↔ ∀ c ∈ x, isalpha c = false := by
  induction x with
  | nil => simp [normalizaPalavra]
  | cons c r ih =>
    simp only [normalizaPalavra, List.mem_cons, forall_eq_or_imp]
    split_ifs with h
    · simp [h]
    · simp [h, ih]

/-- C13: normalization is idempotent: normalizing a normalized string
gives it back. -/
theorem normalizaPalavra_idempotente (x : Cadeia) :
    normalizaPalavra (normalizaPalavra x) = normalizaPalavra x :=
  normalizaPalavra_idem x

/-- C14: the normalized string is the subsequence of the alphabetic bytes
of `x`, in their order, each lowered; it is no longer than `x`, holds only
lowercase letters, and is empty exactly when `x` has no alphabetic byte. -/
theorem normalizaPalavra_caracterizacao (x : Cadeia) :
    normalizaPalavra x = (x.filter isalpha).map tolower ∧
    (normalizaPalavra x).length ≤ x.length ∧
    (∀ c ∈ normalizaPalavra x, 97 ≤ c ∧ c ≤ 122) ∧
    (normalizaPalavra x = [] ↔ ∀ c ∈ x, isalpha c = false) := by
  refine ⟨normalizaPalavra_eq_filter_map x, ?_, ?_, normalizaPalavra_eq_nil_iff x⟩
  · rw [normalizaPalavra_eq_filter_map, List.length_map]
    exact List.length_filter_le _ _
  · intro c hc
    rw [normalizaPalavra_eq_filter_map] at hc
    simp only [List.mem_map, List.mem_filter] at hc
    obtain ⟨b, ⟨_, hb⟩, rfl⟩ := hc
    simp only [isalpha, Bool.or_eq_true, Bool.and_eq_true, decide_eq_true_eq] at hb
    simp only [tolower]
    split_ifs <;> omega

/-! ## Tokens without letters -/

theorem mem_linhasInseridas_paresDe (arquivo : List Cadeia) (linha : Int) (w : Cadeia)
    (x : Int) (h : x ∈ linhasInseridas (paresDe arquivo linha) w) : linha ≤ x := by
  simp only [linhasInseridas, List.mem_map, List.mem_filter] at h
  obtain ⟨p, ⟨hp, _⟩, rfl⟩ := h
  exact mem_paresDe arquivo linha p hp

theorem count_linhasInseridas_paresDe (arquivo : List Cadeia) (k : Int) (i : Nat) (a : Cadeia)
    (w : Cadeia) (ha : arquivo[i]? = some a) :
    (linhasInseridas (paresDe arquivo k) w).count (k + i) =
      ((strtok a).filter (fun token => normalizaPalavra token = w)).length := by
  induction arquivo generalizing k i with
  | nil => simp at ha
  | cons a0 r ih =>
    simp only [paresDe, linhasInseridas_append, linhasInseridas_tokens, List.count_append]
    cases i with
    | zero =>
      simp only [List.getElem?_cons_zero, Option.some.injEq] at ha
      subst ha
      have h0 : (linhasInseridas (paresDe r (k + 1)) w).count k = 0 := by
        rw [List.count_eq_zero]
        intro hx
        have := mem_linhasInseridas_paresDe r (k + 1) w k hx
        omega
      simp [h0]
    | succ j =>
      simp only [List.getElem?_cons_succ] at ha
      have h1 := ih (k + 1) j ha
      have he : k + ((j + 1 : Nat) : Int) = k + 1 + (j : Int) := by push_cast; ring
      rw [he, h1]
      have h0 : (List.replicate
          ((strtok a0).filter (fun token => normalizaPalavra token = w)).length k).count
          (k + 1 + (j : Int)) = 0 := by
        rw [List.count_eq_zero]
        intro hx
        have := List.eq_of_mem_replicate hx
        omega
      rw [h0, Nat.zero_add]

theorem count_map_criaNoListaPalavras (P : List (Cadeia × Int)) (w : Cadeia) (n : Int) :
    (P.map (fun p => criaNoListaPalavras p.1 p.2)).count (criaNoListaPalavras w n) =
      (linhasInseridas P w).count n := by
  induction P with
  | nil => simp [linhasInseridas]
  | cons p r ih =>
    simp only [linhasInseridas, criaNoListaPalavras] at ih
    simp only [linhasInseridas, criaNoListaPalavras, List.map_cons, List.count_cons,
      List.filter_cons, ih]
    by_cases hw : p.1 = w
    · by_cases hn : p.2 = n
      · simp [hw, hn]
      · simp [hw, hn, List.count_cons]
    · simp [hw]

theorem tokensSemLetras_eq (a : Cadeia) :
    tokensSemLetras a = (strtok a).filter (fun token => normalizaPalavra token = []) := by
  simp only [tokensSemLetras]
  apply List.filter_congr
  intro t _
  have h := normalizaPalavra_eq_nil_iff t
  by_cases hn : normalizaPalavra t = []
  · simp only [hn, decide_True, List.all_eq_true, Bool.not_eq_true']
    exact h.1 hn
  · simp only [hn, decide_False]
    rw [Bool.eq_false_iff]
    intro hall
    apply hn
    rw [h]
    simpa using hall

/-- C15: when line `i + 1` of the text has tokens without any alphabetic
byte, the ingestion pass puts the pair of the empty word and `i + 1` into
the list once per such token, and the tree holds a node with the empty key
whose line array lists `i + 1` once per such token. -/
theorem tokens_sem_letras_indexados (arquivo : List Cadeia) (i : Nat) (a : Cadeia)
    (ha : arquivo[i]? = some a) (hm : tokensSemLetras a ≠ []) :
    (indexa arquivo).cabeca_da_lista.count (criaNoListaPalavras [] ((i : Int) + 1)) =
      (tokensSemLetras a).length ∧
    0 < (tokensSemLetras a).length ∧
    ∃ linhas ocorrencias esquerda direita,
      buscaArvore (indexa arquivo).raiz_da_arvore [] =
        .no [] linhas ocorrencias esquerda direita ∧
      linhas.count ((i : Int) + 1) = (tokensSemLetras a).length := by
  have hcount := count_linhasInseridas_paresDe arquivo 1 i a [] ha
  rw [← tokensSemLetras_eq, add_comm] at hcount
  have hpos : 0 < (tokensSemLetras a).length := List.length_pos.2 hm
  refine ⟨?_, hpos, ?_⟩
  · rw [indexa_eq]
    have hp := insereTodosLista_perm (paresDe arquivo 1) []
    simp only [List.nil_append] at hp
    rw [hp.count_eq, count_map_criaNoListaPalavras, hcount]
  · have hne : linhasInseridas (paresDe arquivo 1) [] ≠ [] := by
      intro e
      rw [e] at hcount
      simp at hcount
      omega
    have hc := campos_buscaArvore_indexa arquivo []
    rw [if_neg hne] at hc
    obtain ⟨e, d, hno⟩ := (campos_eq_some_iff _ _ _ _).1 hc
    exact ⟨_, _, e, d, hno, hcount⟩

/-- Line `1` of the two-line text `"a -- 42\n", "b\n"` has the two tokens
`--` and `42` without letters; both are indexed under the empty word. -/
theorem tokens_sem_letras_indexados_witness :
    [bytes "a -- 42\n", bytes "b\n"][0]? = some (bytes "a -- 42\n") ∧
    tokensSemLetras (bytes "a -- 42\n") ≠ [] ∧
    (indexa [bytes "a -- 42\n", bytes "b\n"]).cabeca_da_lista.count
        (criaNoListaPalavras [] (((0 : Nat) : Int) + 1)) =
      (tokensSemLetras (bytes "a -- 42\n")).length ∧
    0 < (tokensSemLetras (bytes "a -- 42\n")).length ∧
    ∃ linhas ocorrencias esquerda direita,
      buscaArvore (indexa [bytes "a -- 42\n", bytes "b\n"]).raiz_da_arvore [] =
        .no [] linhas ocorrencias esquerda direita ∧
      linhas.count (((0 : Nat) : Int) + 1) = (tokensSemLetras (bytes "a -- 42\n")).length :=
  ⟨by decide, by decide,
    tokens_sem_letras_indexados [bytes "a -- 42\n", bytes "b\n"] 0 (bytes "a -- 42\n")
      (by decide) (by decide)⟩

/-! ## Order of the lines and of the traversal -/

/-- C16: after the ingestion pass the line array of every tree node is in
non-decreasing order. -/
theorem linhas_dos_nos_ordenadas (arquivo : List Cadeia) (k : Cadeia) (ls : List Int)
    (oc : Nat) (h : (k, ls, oc) ∈ nos (indexa arquivo).raiz_da_arvore) :
    List.Sorted (fun a b : Int => a ≤ b) ls := by
  rw [indexa_eq] at h
  rw [(mem_nos_insereTodosArvore (paresDe arquivo 1) k ls oc h).1]
  exact linhasInseridas_sorted arquivo 1 k

/-- The node of `cat` in the tree of the example file holds the lines
`1, 2, 2`, which are in non-decreasing order. -/
theorem linhas_dos_nos_ordenadas_witness :
    (bytes "cat", [1, 2, 2], 3) ∈ nos (indexa arquivoExemplo).raiz_da_arvore ∧
    List.Sorted (fun a b : Int => a ≤ b) [1, 2, 2] :=
  ⟨by decide,
    linhas_dos_nos_ordenadas arquivoExemplo (bytes "cat") [1, 2, 2] 3 (by decide)⟩

theorem map_fst_imprimeArvore (t : no_arvore_palavras) :
    (imprimeArvore t).map (fun r => r.1) = chaves t := by
  induction t with
  | NULL => rfl
  | no k ls oc e d ihe ihd => simp [imprimeArvore, chaves, ihe, ihd]

theorem BST_pairwise_chaves (t : no_arvore_palavras) (h : BST t) :
    (chaves t).Pairwise menor := by
  induction t with
  | NULL => simp [chaves]
  | no k ls oc e d ihe ihd =>
    obtain ⟨he, hd, hbe, hbd⟩ := h
    simp only [chaves]
    rw [List.pairwise_append, List.pairwise_cons]
    refine ⟨ihe hbe, ⟨hd, ihd hbd⟩, ?_⟩
    intro x hx y hy
    rcases List.mem_cons.1 hy with hy | hy
    · subst hy
      exact he x hx
    · exact menor_trans (he x hx) (hd y hy)

theorem imprimeArvore_perm_nos (t : no_arvore_palavras) (hc : Coerente t) :
    (imprimeArvore t).Perm ((nos t).map (fun n => (n.1, n.2.2, n.2.1))) := by
  induction t with
  | NULL => simp [imprimeArvore, nos]
  | no k ls oc e d ihe ihd =>
    obtain ⟨hoc, hce, hcd⟩ := hc
    subst hoc
    simp only [imprimeArvore, nos, List.map_cons, List.map_append, List.take_length]
    exact List.perm_middle.trans (List.Perm.cons _ ((ihe hce).append (ihd hcd)))

/-- C17: for a tree built by insertions from the empty tree, the in-order
traversal prints one record per node of the tree, each made of the node's
key, its counter and its line array, and the keys come out in strictly
ascending order. -/
theorem imprimeArvore_em_ordem (pares : List (Cadeia × Int)) :
    (imprimeArvore (insereTodosArvore .NULL pares)).Perm
      ((nos (insereTodosArvore .NULL pares)).map (fun n => (n.1, n.2.2, n.2.1))) ∧
    (imprimeArvore (insereTodosArvore .NULL pares)).length =
      numNos (insereTodosArvore .NULL pares) ∧
    ((imprimeArvore (insereTodosArvore .NULL pares)).map (fun r => r.1)).Pairwise menor := by
  have hp := imprimeArvore_perm_nos _ (Coerente_insereTodosArvore pares .NULL trivial)
  refine ⟨hp, ?_, ?_⟩
  · rw [hp.length_eq, List.length_map, numNos_eq_length_nos]
  · rw [map_fst_imprimeArvore]
    exact BST_pairwise_chaves _ (BST_insereTodosArvore pares .NULL trivial)

/-! ## Query dispatch -/

/-- C18, the claim as stated, refuted at a concrete input: with the
selector `list` the query `cat` on the indexes of the example file is not
answered from the list, and with the selector `tree` it is not answered
from the tree; both produce the invalid-type notice. -/
theorem comandoBusca_list_tree_invalidos :
    (comandoBusca (bytes "list") (indexa arquivoExemplo) (bytes "cat")).1 =
      Saida.tipoInvalido ∧
    (comandoBusca (bytes "list") (indexa arquivoExemplo) (bytes "cat")).1 ≠
      Saida.lista (procuraNaLista (indexa arquivoExemplo).cabeca_da_lista (bytes "cat")) ∧
    (comandoBusca (bytes "tree") (indexa arquivoExemplo) (bytes "cat")).1 =
      Saida.tipoInvalido ∧
    (comandoBusca (bytes "tree") (indexa arquivoExemplo) (bytes "cat")).1 ≠
      Saida.arvore (buscaArvore (indexa arquivoExemplo).raiz_da_arvore
        (normalizaPalavra (bytes "cat"))) := by
  decide

/-- C18, amended: the selector `lista` answers the query from the linked
list with the raw query, the selector `arvore` answers it from the tree
with the normalized query, and every other selector value (`list`, `tree`
and `graph` among them) produces the invalid-type notice and no search
result; in all three cases both indexes are left as they were. -/
theorem comandoBusca_despacho (argv2 : Cadeia) (ix : Indices) (q : Cadeia) :
    (argv2 = bytes "lista" →
      (comandoBusca argv2 ix q).1 = Saida.lista (procuraNaLista ix.cabeca_da_lista q)) ∧
    (argv2 = bytes "arvore" →
      (comandoBusca argv2 ix q).1 =
        Saida.arvore (buscaArvore ix.raiz_da_arvore (normalizaPalavra q))) ∧
    (argv2 ≠ bytes "lista" → argv2 ≠ bytes "arvore" →
      (comandoBusca argv2 ix q).1 = Saida.tipoInvalido) ∧
    (comandoBusca (bytes "list") ix q).1 = Saida.tipoInvalido ∧
    (comandoBusca (bytes "tree") ix q).1 = Saida.tipoInvalido ∧
    (comandoBusca (bytes "graph") ix q).1 = Saida.tipoInvalido ∧
    (comandoBusca argv2 ix q).2 = ix := by
  have hgen : ∀ s : Cadeia, s ≠ bytes "lista" → s ≠ bytes "arvore" →
      (comandoBusca s ix q).1 = Saida.tipoInvalido := by
    intro s h1 h2
    have h3 : ¬ strcmp s (bytes "lista") = 0 := fun h => h1 ((strcmp_eq_zero_iff _ _).1 h)
    have h4 : ¬ strcmp s (bytes "arvore") = 0 := fun h => h2 ((strcmp_eq_zero_iff _ _).1 h)
    simp only [comandoBusca, if_neg h3, if_neg h4]
  refine ⟨?_, ?_, hgen argv2, hgen _ (by decide) (by decide), hgen _ (by decide) (by decide),
    hgen _ (by decide) (by decide), ?_⟩
  · intro h
    have h1 : strcmp argv2 (bytes "lista") = 0 := (strcmp_eq_zero_iff _ _).2 h
    simp only [comandoBusca, if_pos h1]
  · intro h
    have h1 : ¬ strcmp argv2 (bytes "lista") = 0 := by
      intro h2
      have h3 := (strcmp_eq_zero_iff _ _).1 h2
      rw [h] at h3
      revert h3
      decide
    have h2 : strcmp argv2 (bytes "arvore") = 0 := (strcmp_eq_zero_iff _ _).2 h
    simp only [comandoBusca, if_neg h1, if_pos h2]
  · simp only [comandoBusca]
    split_ifs <;> rfl

/-! ## Degenerate shape and frame of the insertion -/

theorem criaNoArvore_maior (t : no_arvore_palavras) (w : Cadeia) (l : Int)
    (hs : semEsquerda t) (hw : ∀ k ∈ chaves t, menor k w) :
    semEsquerda (criaNoArvore t w l) ∧ altura (criaNoArvore t w l) = altura t + 1 ∧
      visitas (criaNoArvore t w l) w = altura t + 1 := by
  have h0 : strcmp w w = 0 := (strcmp_eq_zero_iff w w).2 rfl
  induction t with
  | NULL => simp [criaNoArvore, criaNoArvorePalavras, semEsquerda, altura, visitas, h0]
  | no k ls oc e d ihe ihd =>
    obtain ⟨he, hsd⟩ := hs
    subst he
    have hk : menor k w := hw k (by simp [chaves])
    have hpos : 0 < strcmp w k := (strcmp_pos_iff w k).2 hk
    have h1 : ¬ strcmp w k = 0 := by omega
    have h2 : ¬ strcmp w k < 0 := by omega
    have hd := ihd hsd (fun x hx => hw x (by simp [chaves, hx]))
    simp only [criaNoArvore, if_neg h1, if_neg h2, semEsquerda, altura, visitas, hd.1, hd.2.1,
      hd.2.2, true_and]
    simp only [Nat.zero_max, and_true]
    omega

/-- The shape of a tree built from words in strictly ascending order. -/
theorem cadeia_insereTodosArvore (pares : List (Cadeia × Int))
    (h : (pares.map Prod.fst).Pairwise menor) :
    semEsquerda (insereTodosArvore .NULL pares) ∧
      altura (insereTodosArvore .NULL pares) = pares.length ∧
      ∀ p, pares.getLast? = some p →
        visitas (insereTodosArvore .NULL pares) p.1 = pares.length := by
  induction pares using List.reverseRecOn with
  | nil => simp [insereTodosArvore, semEsquerda, altura]
  | append_singleton ps p ih =>
    rw [List.map_append, List.pairwise_append] at h
    obtain ⟨hps, _, hlt⟩ := h
    have ih1 := ih hps
    have hmaior : ∀ k ∈ chaves (insereTodosArvore .NULL ps), menor k p.1 := by
      intro k hk
      rw [mem_chaves_insereTodosArvore] at hk
      rcases hk with hk | hk
      · simp [chaves] at hk
      · exact hlt k hk p.1 (by simp)
    have hc := criaNoArvore_maior (insereTodosArvore .NULL ps) p.1 p.2 ih1.1 hmaior
    rw [insereTodosArvore_append]
    simp only [insereTodosArvore, List.foldl_cons, List.foldl_nil] at hc ih1 ⊢
    refine ⟨hc.1, ?_, ?_⟩
    · rw [hc.2.1, ih1.2.1, List.length_append]
      rfl
    · intro p2 hp2
      have hp3 : p = p2 := by simpa using hp2
      subst hp3
      rw [hc.2.2, ih1.2.1, List.length_append]
      rfl

/-- C19: inserting words in strictly ascending order into the empty tree
yields a tree in which no node has a left child and whose height is the
number of words, and the search for the last word visits that many
nodes. -/
theorem arvore_degenera_em_cadeia (pares : List (Cadeia × Int))
    (h : (pares.map Prod.fst).Pairwise menor) :
    semEsquerda (insereTodosArvore .NULL pares) ∧
    altura (insereTodosArvore .NULL pares) = pares.length ∧
    numNos (insereTodosArvore .NULL pares) = pares.length ∧
    ∀ p, pares.getLast? = some p →
      visitas (insereTodosArvore .NULL pares) p.1 = pares.length := by
  have hc := cadeia_insereTodosArvore pares h
  refine ⟨hc.1, hc.2.1, ?_, hc.2.2⟩
  have hnd : (pares.map Prod.fst).Nodup := by
    refine List.Pairwise.imp ?_ h
    intro a b hab e
    rw [e] at hab
    exact menor_irrefl b hab
  have hn := BST_nodup_chaves _ (BST_insereTodosArvore pares .NULL trivial)
  rw [numNos_eq_length_chaves]
  have hperm : (chaves (insereTodosArvore .NULL pares)).Perm (pares.map Prod.fst) := by
    rw [List.perm_ext_iff_of_nodup hn hnd]
    intro x
    rw [mem_chaves_insereTodosArvore]
    simp [chaves]
  rw [hperm.length_eq, List.length_map]

/-- The words `ant`, `bee`, `cat`, in ascending order, give a chain of
height three, and the search for `cat` visits three nodes. -/
theorem arvore_degenera_em_cadeia_witness :
    ([(bytes "ant", (1 : Int)), (bytes "bee", 1), (bytes "cat", 2)].map Prod.fst).Pairwise
      menor ∧
    semEsquerda (insereTodosArvore .NULL [(bytes "ant", 1), (bytes "bee", 1), (bytes "cat", 2)]) ∧
    altura (insereTodosArvore .NULL [(bytes "ant", 1), (bytes "bee", 1), (bytes "cat", 2)]) = 3 ∧
    numNos (insereTodosArvore .NULL [(bytes "ant", 1), (bytes "bee", 1), (bytes "cat", 2)]) = 3 ∧
    visitas (insereTodosArvore .NULL [(bytes "ant", 1), (bytes "bee", 1), (bytes "cat", 2)])
      (bytes "cat") = 3 :=
  have h := arvore_degenera_em_cadeia [(bytes "ant", 1), (bytes "bee", 1), (bytes "cat", 2)]
    (by decide)
  ⟨by decide, h.1, h.2.1, h.2.2.1, h.2.2.2 (bytes "cat", 2) (by decide)⟩

/-- C20: inserting `w` leaves every other word as it was: for `v` different
from `w` the search finds a node after the insertion exactly when it did
before, with the same key, line array and counter; and the keys of the new
tree are the old keys and `w`. -/
theorem criaNoArvore_moldura (raiz : no_arvore_palavras) (w v : Cadeia) (l : Int)
    (hvw : v ≠ w) :
    campos (buscaArvore (criaNoArvore raiz w l) v) = campos (buscaArvore raiz v) ∧
    (buscaArvore (criaNoArvore raiz w l) v = .NULL ↔ buscaArvore raiz v = .NULL) ∧
    ∀ x, x ∈ chaves (criaNoArvore raiz w l) ↔ x ∈ chaves raiz ∨ x = w := by
  have h := buscaArvore_criaNoArvore_outro raiz w v l hvw
  refine ⟨h, ?_, fun x => mem_chaves_criaNoArvore raiz w l x⟩
  rw [← campos_eq_none_iff, ← campos_eq_none_iff, h]

/-- In the example tree, inserting `(cat, 2)` leaves the search for `dog`
as it was. -/
theorem criaNoArvore_moldura_witness :
    bytes "dog" ≠ bytes "cat" ∧
    campos (buscaArvore (criaNoArvore arvoreExemplo (bytes "cat") 2) (bytes "dog")) =
      campos (buscaArvore arvoreExemplo (bytes "dog")) ∧
    (buscaArvore (criaNoArvore arvoreExemplo (bytes "cat") 2) (bytes "dog") = .NULL ↔
      buscaArvore arvoreExemplo (bytes "dog") = .NULL) ∧
    ∀ x, x ∈ chaves (criaNoArvore arvoreExemplo (bytes "cat") 2) ↔
      x ∈ chaves arvoreExemplo ∨ x = bytes "cat" :=
  ⟨by decide, criaNoArvore_moldura arvoreExemplo (bytes "cat") (bytes "dog") 2 (by decide)⟩

/-! ## Linked list: entries kept by the insertion -/

theorem insereNoLista_divide (l : List no_lista_palavras) (w : Cadeia) (n : Int) :
    ∃ antes depois, l = antes ++ depois ∧
      insereNoLista l w n = antes ++ criaNoListaPalavras w n :: depois := by
  cases l with
  | nil => exact ⟨[], [], rfl, rfl⟩
  | cons p r =>
    simp only [insereNoLista]
    split_ifs with h
    · exact ⟨[], p :: r, rfl, rfl⟩
    · refine ⟨p :: r.takeWhile (fun x => decide (x.linha < n)),
        r.dropWhile (fun x => decide (x.linha < n)), ?_, ?_⟩
      · simp [List.takeWhile_append_dropWhile]
      · rw [insereDepois_eq]
        rfl

/-- C21: for every list, sorted or not, the entries of
`insereNoLista(list, word, line)` are, as a multiset, the entries of the
list and the one new entry; the length grows by exactly one; and the new
node is placed between two parts of the list that keep their nodes and
their order. -/
theorem insereNoLista_conserva (cabeca : List no_lista_palavras) (palavra : Cadeia)
    (linha : Int) :
    ((insereNoLista cabeca palavra linha : List no_lista_palavras) :
        Multiset no_lista_palavras) =
      criaNoListaPalavras palavra linha ::ₘ (cabeca : Multiset no_lista_palavras) ∧
    (insereNoLista cabeca palavra linha).length = cabeca.length + 1 ∧
    (∃ antes depois, cabeca = antes ++ depois ∧
      insereNoLista cabeca palavra linha =
        antes ++ criaNoListaPalavras palavra linha :: depois) ∧
    cabeca.Sublist (insereNoLista cabeca palavra linha) := by
  have hp := insereNoLista_perm cabeca palavra linha
  obtain ⟨antes, depois, h1, h2⟩ := insereNoLista_divide cabeca palavra linha
  refine ⟨?_, ?_, ⟨antes, depois, h1, h2⟩, ?_⟩
  · rw [Multiset.cons_coe, Multiset.coe_eq_coe]
    exact hp
  · rw [hp.length_eq]
    rfl
  · rw [h2]
    conv => lhs; rw [h1]
    exact (List.Sublist.refl antes).append (List.sublist_cons_self _ depois)

end Ep
